import Mathlib

/-!
Verification of the money-trail graph engine of the PoliticalDonorTracker
repository: the graph data model, the adjacency index, the breadth-first
path finder, the graph analytics (node statistics, shared board members,
shell-organization heuristic, downstream recipients) and the initialization
effect of the force-layout hook.

All definitions are shallow embeddings of the TypeScript source
(`pathFinding` utilities and the `useForceLayout` hook).  JavaScript numbers
are modelled as integers (`Int`) for amounts and hop budgets — every value
the claims exercise is integral — except the `* 0.2` threshold comparison in
the shell-organization heuristic, which is carried out in `ℚ`.
JavaScript `Map`s are modelled as association lists with the same
insert/overwrite semantics.
-/

/-- A node of the donor/media network.  The TypeScript interface carries many
further optional display attributes (netWorth, domain, party, …); only the
fields the graph algorithms read are modelled. -/
structure NetworkNode where
  id : String
  name : String
  type : String
  boardMembers : Option (List String) := none
deriving DecidableEq, Repr

/-- A directed funding/influence link.  Further optional display fields of the
TypeScript interface (startYear, confidence, …) are omitted; `amount` is the
only optional field the algorithms read (`link.amount || 0`). -/
structure NetworkLink where
  source : String
  target : String
  relationship : String
  amount : Option Int := none
deriving DecidableEq, Repr

/-- The graph: a node list and a link list. -/
structure DonorMediaNetwork where
  nodes : List NetworkNode
  links : List NetworkLink
deriving DecidableEq, Repr

/-- Options of `findPaths`. -/
structure PathFinderOptions where
  maxHops : Int
  includeIntermediaries : Bool := false
  filterByRelationship : Option (List String) := none
  filterByNodeType : Option (List String) := none
deriving DecidableEq, Repr

/-- A discovered path: resolved nodes, traversed links, cumulative amount and
hop count. -/
structure MoneyPath where
  nodes : List NetworkNode
  links : List NetworkLink
  totalAmount : Int
  hopCount : Nat
deriving DecidableEq, Repr

/-- One adjacency entry: `{ targetId, link }`. -/
structure AdjEntry where
  targetId : String
  link : NetworkLink
deriving DecidableEq, Repr

/-- The adjacency index, a JavaScript `Map` from node id to entry list,
modelled as an association list with unique keys in insertion order. -/
abbrev AdjacencyMap := List (String × List AdjEntry)

/-- `map.get(k) || []`. -/
def adjGet (m : AdjacencyMap) (k : String) : List AdjEntry :=
  (Option.map Prod.snd (m.find? (fun p => p.1 = k))).getD []

/-- Append `v` to the entry list of key `k`, creating the key at the end when
absent — the effect of
`if (!map.has(k)) map.set(k, []); map.get(k)!.push(v)`. -/
def adjPush (m : AdjacencyMap) (k : String) (v : AdjEntry) : AdjacencyMap :=
  match m with
  | [] => [(k, [v])]
  | (k₀, vs) :: rest =>
      if k₀ = k then (k₀, vs ++ [v]) :: rest else (k₀, vs) :: adjPush rest k v

/-- `filterByRelationship && !filterByRelationship.includes(link.relationship)`
— `true` when the link is dropped by the relationship filter. -/
def relationshipExcluded (filterByRelationship : Option (List String))
    (link : NetworkLink) : Bool :=
  match filterByRelationship with
  | some f => !(f.contains link.relationship)
  | none => false

/-- `buildAdjacencyMap`: every surviving link contributes a forward entry
under its source and a reverse entry under its target (bidirectional
traversal).  Node resolution is never consulted: dangling links enter the map
as-is. -/
def buildAdjacencyMap (network : DonorMediaNetwork)
    (filterByRelationship : Option (List String)) : AdjacencyMap :=
  network.links.foldl
    (fun m link =>
      if relationshipExcluded filterByRelationship link then m
      else
        adjPush (adjPush m link.source ⟨link.target, link⟩)
          link.target ⟨link.source, link⟩)
    []

/-- The JavaScript `Map` from node id to node built by
`new Map(network.nodes.map(n => [n.id, n]))`: assoc list, later nodes with a
duplicate id overwrite in place. -/
abbrev NodeMap := List (String × NetworkNode)

/-- `map.set(k, v)`: overwrite in place, else append. -/
def nodeMapSet (m : NodeMap) (k : String) (v : NetworkNode) : NodeMap :=
  match m with
  | [] => [(k, v)]
  | (k₀, v₀) :: rest =>
      if k₀ = k then (k, v) :: rest else (k₀, v₀) :: nodeMapSet rest k v

/-- Build the node map from the node list. -/
def buildNodeMap (nodes : List NetworkNode) : NodeMap :=
  nodes.foldl (fun m n => nodeMapSet m n.id n) []

/-- `map.get(k)`. -/
def nodeMapGet (m : NodeMap) (k : String) : Option NetworkNode :=
  Option.map Prod.snd (m.find? (fun p => p.1 = k))

/-- One frontier item of the breadth-first search. -/
structure BfsState where
  nodeId : String
  nodePath : List String
  linkPath : List NetworkLink
  totalAmount : Int
deriving DecidableEq, Repr

/-- The `MoneyPath` emitted for a frontier state:
`nodePath.map(id => nodeMap.get(id)!).filter(Boolean)` resolved nodes, the
link path, the cumulative amount and the hop count. -/
def statePath (nodeMap : NodeMap) (s : BfsState) : MoneyPath :=
  { nodes := s.nodePath.filterMap (nodeMapGet nodeMap)
    links := s.linkPath
    totalAmount := s.totalAmount
    hopCount := s.linkPath.length }

/-- `filterByNodeType && targetNode && !filterByNodeType.includes(targetNode.type)`
— `true` when the neighbor is dropped by the node-type filter. -/
def nodeTypeBlocked (filterByNodeType : Option (List String))
    (targetNode : Option NetworkNode) : Bool :=
  match filterByNodeType, targetNode with
  | some f, some tn => !(f.contains tn.type)
  | _, _ => false

/-- The frontier items the loop body pushes for the neighbors of `cur`:
neighbors already on the node path are skipped (cycle avoidance), then the
node-type filter is applied. -/
def stateExtensions (adj : AdjacencyMap) (nodeMap : NodeMap)
    (filterByNodeType : Option (List String)) (cur : BfsState) :
    List BfsState :=
  (adjGet adj cur.nodeId).filterMap
    (fun e =>
      if cur.nodePath.contains e.targetId then none
      else if nodeTypeBlocked filterByNodeType (nodeMapGet nodeMap e.targetId) then none
      else
        some
          { nodeId := e.targetId
            nodePath := cur.nodePath ++ [e.targetId]
            linkPath := cur.linkPath ++ [e.link]
            totalAmount := cur.totalAmount + e.link.amount.getD 0 })

/-- Total number of adjacency entries — bounds the length of every entry
list, and hence the number of pushed extensions. -/
def adjSize (adj : AdjacencyMap) : Nat :=
  (adj.map (fun p => p.2.length)).sum

/-- Exponential weight of one frontier item, decreasing as the node path
grows. -/
def stateWeight (adj : AdjacencyMap) (maxHops : Int) (s : BfsState) : Nat :=
  (adjSize adj + 1) ^ (maxHops + 2 - (s.nodePath.length : Int)).toNat

/-- Termination measure of the BFS worklist. -/
def queueMeasure (adj : AdjacencyMap) (maxHops : Int)
    (queue : List BfsState) : Nat :=
  (queue.map (stateWeight adj maxHops)).sum

theorem adjGet_length_le (m : AdjacencyMap) (k : String) :
    (adjGet m k).length ≤ adjSize m := by
  induction m with
  | nil => simp [adjGet, adjSize]
  | cons p rest ih =>
      by_cases h : p.1 = k
      · rw [adjGet, List.find?_cons_of_pos _ (by simpa using h)]
        simp [adjSize]
      · rw [adjGet, List.find?_cons_of_neg _ (by simpa using h)]
        refine le_trans (le_of_eq ?_) (le_trans ih ?_)
        · rfl
        · simp [adjSize]

theorem stateExtensions_length_le (adj : AdjacencyMap) (nodeMap : NodeMap)
    (fbnt : Option (List String)) (cur : BfsState) :
    (stateExtensions adj nodeMap fbnt cur).length ≤ adjSize adj :=
  le_trans (List.length_filterMap_le _ _) (adjGet_length_le adj cur.nodeId)

theorem stateExtensions_nodePath_length {adj : AdjacencyMap}
    {nodeMap : NodeMap} {fbnt : Option (List String)} {cur s : BfsState}
    (hs : s ∈ stateExtensions adj nodeMap fbnt cur) :
    s.nodePath.length = cur.nodePath.length + 1 := by
  simp only [stateExtensions, List.mem_filterMap] at hs
  obtain ⟨e, -, he⟩ := hs
  split at he
  · exact absurd he (by simp)
  · split at he
    · exact absurd he (by simp)
    · rw [Option.some_inj] at he
      subst he
      simp

theorem queueMeasure_append (adj : AdjacencyMap) (maxHops : Int)
    (q₁ q₂ : List BfsState) :
    queueMeasure adj maxHops (q₁ ++ q₂) =
      queueMeasure adj maxHops q₁ + queueMeasure adj maxHops q₂ := by
  simp [queueMeasure]

theorem queueMeasure_extensions_lt (adj : AdjacencyMap) (nodeMap : NodeMap)
    (fbnt : Option (List String)) (maxHops : Int) (cur : BfsState)
    (hlen : ¬ ((cur.nodePath.length : Int) > maxHops + 1)) :
    queueMeasure adj maxHops (stateExtensions adj nodeMap fbnt cur) <
      stateWeight adj maxHops cur := by
  have hle : (cur.nodePath.length : Int) ≤ maxHops + 1 := not_lt.mp hlen
  have hexp : (maxHops + 2 - (cur.nodePath.length : Int)).toNat =
      (maxHops + 2 - ((cur.nodePath.length : Int) + 1)).toNat + 1 := by omega
  have hweights : ∀ s ∈ stateExtensions adj nodeMap fbnt cur,
      stateWeight adj maxHops s =
        (adjSize adj + 1) ^ (maxHops + 2 - ((cur.nodePath.length : Int) + 1)).toNat := by
    intro s hs
    have := stateExtensions_nodePath_length hs
    simp [stateWeight, this]
  calc queueMeasure adj maxHops (stateExtensions adj nodeMap fbnt cur)
      = ((stateExtensions adj nodeMap fbnt cur).map (stateWeight adj maxHops)).sum := rfl
    _ ≤ ((stateExtensions adj nodeMap fbnt cur).map
          (fun _ => (adjSize adj + 1) ^
            (maxHops + 2 - ((cur.nodePath.length : Int) + 1)).toNat)).sum := by
        apply List.sum_le_sum
        intro s hs
        rw [hweights s hs]
    _ = (stateExtensions adj nodeMap fbnt cur).length *
          (adjSize adj + 1) ^ (maxHops + 2 - ((cur.nodePath.length : Int) + 1)).toNat := by
        rw [List.map_const', List.sum_replicate, smul_eq_mul]
    _ ≤ adjSize adj *
          (adjSize adj + 1) ^ (maxHops + 2 - ((cur.nodePath.length : Int) + 1)).toNat := by
        exact Nat.mul_le_mul_right _ (stateExtensions_length_le adj nodeMap fbnt cur)
    _ < (adjSize adj + 1) *
          (adjSize adj + 1) ^ (maxHops + 2 - ((cur.nodePath.length : Int) + 1)).toNat := by
        apply Nat.mul_lt_mul_of_lt_of_le (Nat.lt_succ_self _) (le_refl _)
        exact Nat.pos_pow_of_pos _ (Nat.succ_pos _)
    _ = stateWeight adj maxHops cur := by
        rw [stateWeight, hexp, pow_succ]
        ring

theorem stateWeight_pos (adj : AdjacencyMap) (maxHops : Int) (s : BfsState) :
    0 < stateWeight adj maxHops s :=
  Nat.pos_pow_of_pos _ (Nat.succ_pos _)

/-- Truthiness of `endId` in the JavaScript guards `endId && ...` and
`!endId && ...`: a `string | null` is truthy exactly when it is a nonempty
string — an empty-string target behaves like `null`. -/
def endIdTruthy (endId : Option String) : Bool :=
  match endId with
  | some e => !(e == "")
  | none => false

/-- The BFS worklist loop of `findPaths`.  Each iteration dequeues the front
state; a state past the hop budget is dropped; with a truthy (non-null,
nonempty-string) target id, a state sitting at the target beyond the start
emits its path and stops; otherwise the state is emitted when the target id
is falsy and the path is beyond the start, and the neighbor extensions are
enqueued at the back. -/
def findPathsGo (adj : AdjacencyMap) (nodeMap : NodeMap)
    (endId : Option String) (maxHops : Int)
    (fbnt : Option (List String)) : List BfsState → List MoneyPath
  | [] => []
  | cur :: rest =>
      if (cur.nodePath.length : Int) > maxHops + 1 then
        findPathsGo adj nodeMap endId maxHops fbnt rest
      else if endIdTruthy endId = true ∧ endId = some cur.nodeId ∧
          cur.nodePath.length > 1 then
        statePath nodeMap cur :: findPathsGo adj nodeMap endId maxHops fbnt rest
      else
        (if endIdTruthy endId = false ∧ cur.nodePath.length > 1 then
          [statePath nodeMap cur] else []) ++
          findPathsGo adj nodeMap endId maxHops fbnt
            (rest ++ stateExtensions adj nodeMap fbnt cur)
termination_by queue => queueMeasure adj maxHops queue
decreasing_by
  · simp only [queueMeasure, List.map_cons, List.sum_cons]
    exact Nat.lt_add_of_pos_left (stateWeight_pos adj maxHops cur)
  · simp only [queueMeasure, List.map_cons, List.sum_cons]
    exact Nat.lt_add_of_pos_left (stateWeight_pos adj maxHops cur)
  · rw [queueMeasure_append]
    simp only [queueMeasure, List.map_cons, List.sum_cons]
    have h := queueMeasure_extensions_lt adj nodeMap fbnt maxHops cur (by omega)
    simp only [queueMeasure] at h
    omega

/-- `paths.sort((a, b) => b.totalAmount - a.totalAmount)`: stable sort by
cumulative amount, descending. -/
def sortPathsByAmount (paths : List MoneyPath) : List MoneyPath :=
  paths.mergeSort (fun a b => b.totalAmount ≤ a.totalAmount)

/-- `findPaths`: breadth-first search from `startId` over the bidirectional
adjacency index, optionally stopping at `endId`, with relationship and
node-type filters, results sorted by cumulative amount descending. -/
def findPaths (network : DonorMediaNetwork) (startId : String)
    (endId : Option String) (options : PathFinderOptions) : List MoneyPath :=
  sortPathsByAmount
    (findPathsGo (buildAdjacencyMap network options.filterByRelationship)
      (buildNodeMap network.nodes) endId options.maxHops
      options.filterByNodeType
      [{ nodeId := startId, nodePath := [startId], linkPath := [], totalAmount := 0 }])

/-- Result of `getDirectConnections`: edges partitioned by the literal stored
direction. -/
structure DirectConnections where
  incoming : List NetworkLink
  outgoing : List NetworkLink
deriving DecidableEq, Repr

/-- `getDirectConnections`: `incoming` are the links with `target == nodeId`,
`outgoing` those with `source == nodeId`, in link-list order. -/
def getDirectConnections (network : DonorMediaNetwork) (nodeId : String) :
    DirectConnections :=
  { incoming := network.links.filter (fun l => l.target = nodeId)
    outgoing := network.links.filter (fun l => l.source = nodeId) }

/-- Increment the counter of key `k` in a `Record<string, number>`, creating
it (at the end) when absent. -/
def recordIncr (m : List (String × Nat)) (k : String) : List (String × Nat) :=
  match m with
  | [] => [(k, 1)]
  | (k₀, c) :: rest =>
      if k₀ = k then (k₀, c + 1) :: rest else (k₀, c) :: recordIncr rest k

/-- Result of `getNodeStats`. -/
structure NodeStats where
  incomingCount : Nat
  outgoingCount : Nat
  totalFundingReceived : Int
  totalFundingGiven : Int
  connectedNodeTypes : List (String × Nat)
deriving DecidableEq, Repr

/-- `getNodeStats`: counts and amount sums over the direct connections, plus
the per-neighbor-type breakdown (unresolved neighbor ids contribute
nothing). -/
def getNodeStats (network : DonorMediaNetwork) (nodeId : String) : NodeStats :=
  let dc := getDirectConnections network nodeId
  let nodeMap := buildNodeMap network.nodes
  let inTypes := dc.incoming.foldl
    (fun m l =>
      match nodeMapGet nodeMap l.source with
      | some n => recordIncr m n.type
      | none => m) []
  let allTypes := dc.outgoing.foldl
    (fun m l =>
      match nodeMapGet nodeMap l.target with
      | some n => recordIncr m n.type
      | none => m) inTypes
  { incomingCount := dc.incoming.length
    outgoingCount := dc.outgoing.length
    totalFundingReceived := dc.incoming.foldl (fun sum l => sum + l.amount.getD 0) 0
    totalFundingGiven := dc.outgoing.foldl (fun sum l => sum + l.amount.getD 0) 0
    connectedNodeTypes := allTypes }

/-- `findSharedBoardMembers`: empty when either node lacks the attribute,
otherwise the members of the second list that occur in the first, in the
second list's order. -/
def findSharedBoardMembers (nodeA nodeB : NetworkNode) : List String :=
  match nodeA.boardMembers, nodeB.boardMembers with
  | some la, some lb => lb.filter (fun member => la.contains member)
  | _, _ => []

/-- `identifyShellOrgs`: keep the nodes of type `foundation` or `shell_org`
whose stats show ≥ 1 incoming, ≥ 2 outgoing, and in/out totals within 20%
of the incoming total (the `* 0.2` comparison carried out in `ℚ`). -/
def identifyShellOrgs (network : DonorMediaNetwork) : List NetworkNode :=
  network.nodes.filter
    (fun node =>
      (node.type == "foundation" || node.type == "shell_org") &&
        (let stats := getNodeStats network node.id
         decide (1 ≤ stats.incomingCount) && decide (2 ≤ stats.outgoingCount) &&
           decide (|(stats.totalFundingReceived : ℚ) - (stats.totalFundingGiven : ℚ)| <
             (stats.totalFundingReceived : ℚ) * 0.2)))

/-- One aggregated downstream recipient. -/
structure DownstreamRecipient where
  node : NetworkNode
  totalAmount : Int
  pathCount : Nat
deriving DecidableEq, Repr

/-- Add one path's terminal node to the recipient map: accumulate into the
existing entry in place, else append a fresh entry. -/
def recipientAdd (m : List (String × DownstreamRecipient))
    (endNode : NetworkNode) (amount : Int) :
    List (String × DownstreamRecipient) :=
  match m with
  | [] => [(endNode.id, ⟨endNode, amount, 1⟩)]
  | (k, r) :: rest =>
      if k = endNode.id then
        (k, ⟨r.node, r.totalAmount + amount, r.pathCount + 1⟩) :: rest
      else (k, r) :: recipientAdd rest endNode amount

/-- One iteration of the grouping loop of `getDownstreamRecipients`:
`path.nodes[path.nodes.length - 1]` — a `TypeError` on an empty node list,
modelled by `none` — then skip the source, else accumulate. -/
def downstreamStep (sourceId : String) (m : List (String × DownstreamRecipient))
    (path : MoneyPath) : Option (List (String × DownstreamRecipient)) :=
  match path.nodes.getLast? with
  | none => none
  | some endNode =>
      if endNode.id = sourceId then some m
      else some (recipientAdd m endNode path.totalAmount)

/-- `getDownstreamRecipients`: run `findPaths` with no target, group the
paths by the last node of their (resolved) node list, skipping paths that end
back at the source, and sort the accumulated entries by amount descending. -/
def getDownstreamRecipients (network : DonorMediaNetwork) (sourceId : String)
    (maxHops : Int) : Option (List DownstreamRecipient) :=
  let paths := findPaths network sourceId none
    { maxHops := maxHops, includeIntermediaries := true }
  let grouped : Option (List (String × DownstreamRecipient)) :=
    paths.foldlM (downstreamStep sourceId) []
  grouped.map
    (fun m => (m.map Prod.snd).mergeSort (fun a b => b.totalAmount ≤ a.totalAmount))

/-- A node augmented with a position, as built by the force-layout
initialization (`{...node, x, y}`). -/
structure SimulationNode extends NetworkNode where
  x : ℚ
  y : ℚ
deriving DecidableEq, Repr

/-- The React state cells of `useForceLayout`:
`useState<SimulationNode[]>([])`, `useState<SimulationLink[]>([])`,
`useState(true)`. -/
structure ForceLayoutState where
  nodes : List SimulationNode
  links : List NetworkLink
  isSimulating : Bool
deriving DecidableEq, Repr

/-- The hook state right after the `useState` initializers run. -/
def forceLayoutInitialState : ForceLayoutState :=
  { nodes := [], links := [], isSimulating := true }

/-- What the initialization `useEffect` body leaves behind: the React state
when the body returns, and the d3 simulation it constructed (with `tick` and
`end` handlers registered), if any.  With no simulation there is no handler,
so no position snapshot is ever emitted and `setIsSimulating(false)` is never
invoked. -/
structure InitEffectResult where
  stateAfterBody : ForceLayoutState
  simulation : Option (List SimulationNode × List NetworkLink)
deriving DecidableEq, Repr

/-- The node copies with jittered initial positions around the canvas
center; `rand` stands in for `Math.random()` (one draw per coordinate). -/
def initialSimNodes (rand : Nat → ℚ) (width height : ℚ)
    (inputNodes : List NetworkNode) : List SimulationNode :=
  inputNodes.enum.map
    (fun p =>
      { toNetworkNode := p.2
        x := width / 2 + (rand (2 * p.1) - 1 / 2) * 100
        y := height / 2 + (rand (2 * p.1 + 1) - 1 / 2) * 100 })

/-- The initialization `useEffect` body of `useForceLayout`: an empty input
node list resets the node/link state and returns before any d3 simulation is
created; otherwise the jittered node copies and link copies are handed to a
new simulation whose handlers will later update the state. -/
def useForceLayoutInitEffect (rand : Nat → ℚ) (width height : ℚ)
    (inputNodes : List NetworkNode) (inputLinks : List NetworkLink)
    (st : ForceLayoutState) : InitEffectResult :=
  if inputNodes.length = 0 then
    { stateAfterBody := { st with nodes := [], links := [] }
      simulation := none }
  else
    { stateAfterBody := st
      simulation := some (initialSimNodes rand width height inputNodes, inputLinks) }

/-- Emission relation of the BFS loop: processing frontier state `s` (and the
descendants it enqueues) eventually emits the path `p`.  The three
constructors mirror the three live branches of the loop body. -/
inductive Emits (adj : AdjacencyMap) (nodeMap : NodeMap) (endId : Option String)
    (maxHops : Int) (fbnt : Option (List String)) : BfsState → MoneyPath → Prop
  | hereTarget {s : BfsState} :
      ¬ ((s.nodePath.length : Int) > maxHops + 1) →
      endIdTruthy endId = true → endId = some s.nodeId →
      s.nodePath.length > 1 →
      Emits adj nodeMap endId maxHops fbnt s (statePath nodeMap s)
  | hereNull {s : BfsState} :
      ¬ ((s.nodePath.length : Int) > maxHops + 1) →
      endIdTruthy endId = false → s.nodePath.length > 1 →
      Emits adj nodeMap endId maxHops fbnt s (statePath nodeMap s)
  | step {s t : BfsState} {p : MoneyPath} :
      ¬ ((s.nodePath.length : Int) > maxHops + 1) →
      ¬ (endIdTruthy endId = true ∧ endId = some s.nodeId ∧
          s.nodePath.length > 1) →
      t ∈ stateExtensions adj nodeMap fbnt s →
      Emits adj nodeMap endId maxHops fbnt t p →
      Emits adj nodeMap endId maxHops fbnt s p

theorem emits_iff_of_target {adj : AdjacencyMap} {nm : NodeMap}
    {endId : Option String} {maxHops : Int} {fbnt : Option (List String)}
    {s : BfsState} {p : MoneyPath}
    (hlen : ¬ ((s.nodePath.length : Int) > maxHops + 1))
    (hcond : endIdTruthy endId = true ∧ endId = some s.nodeId ∧
      s.nodePath.length > 1) :
    Emits adj nm endId maxHops fbnt s p ↔ p = statePath nm s := by
  constructor
  · intro h
    cases h with
    | hereTarget h1 h2 h3 h4 => rfl
    | hereNull h1 h2 h3 => exact absurd hcond.1 (by simp [h2])
    | step h1 h2 h3 h4 => exact absurd hcond h2
  · rintro rfl
    exact Emits.hereTarget hlen hcond.1 hcond.2.1 hcond.2.2

theorem emits_iff_of_not_target {adj : AdjacencyMap} {nm : NodeMap}
    {endId : Option String} {maxHops : Int} {fbnt : Option (List String)}
    {s : BfsState} {p : MoneyPath}
    (hlen : ¬ ((s.nodePath.length : Int) > maxHops + 1))
    (hcond : ¬ (endIdTruthy endId = true ∧ endId = some s.nodeId ∧
      s.nodePath.length > 1)) :
    Emits adj nm endId maxHops fbnt s p ↔
      (endIdTruthy endId = false ∧ s.nodePath.length > 1 ∧ p = statePath nm s) ∨
      ∃ t ∈ stateExtensions adj nm fbnt s,
        Emits adj nm endId maxHops fbnt t p := by
  constructor
  · intro h
    cases h with
    | hereTarget h1 h2 h3 h4 => exact absurd ⟨h2, h3, h4⟩ hcond
    | hereNull h1 h2 h3 => exact Or.inl ⟨h2, h3, rfl⟩
    | step h1 h2 h3 h4 => exact Or.inr ⟨_, h3, h4⟩
  · rintro (⟨h2, h3, rfl⟩ | ⟨t, h3, h4⟩)
    · exact Emits.hereNull hlen h2 h3
    · exact Emits.step hlen hcond h3 h4

theorem not_emits_of_budget {adj : AdjacencyMap} {nm : NodeMap}
    {endId : Option String} {maxHops : Int} {fbnt : Option (List String)}
    {s : BfsState} {p : MoneyPath}
    (hlen : (s.nodePath.length : Int) > maxHops + 1) :
    ¬ Emits adj nm endId maxHops fbnt s p := by
  intro h
  cases h <;> contradiction

/-- The paths produced by the BFS loop on a worklist are exactly the
emissions of its states. -/
theorem mem_findPathsGo_iff (adj : AdjacencyMap) (nodeMap : NodeMap)
    (p : MoneyPath) (endId : Option String) (maxHops : Int)
    (fbnt : Option (List String)) (queue : List BfsState) :
    p ∈ findPathsGo adj nodeMap endId maxHops fbnt queue ↔
      ∃ s ∈ queue, Emits adj nodeMap endId maxHops fbnt s p := by
  induction queue using findPathsGo.induct adj nodeMap endId maxHops fbnt with
  | case1 => simp [findPathsGo.eq_1]
  | case2 cur rest hlen ih =>
      rw [findPathsGo.eq_def]
      simp only [if_pos hlen]
      rw [ih]
      simp only [List.mem_cons]
      constructor
      · rintro ⟨s, hs, he⟩
        exact ⟨s, Or.inr hs, he⟩
      · rintro ⟨s, hs | hs, he⟩
        · subst hs
          exact absurd he (not_emits_of_budget hlen)
        · exact ⟨s, hs, he⟩
  | case3 cur rest hlen hcond ih =>
      rw [findPathsGo.eq_def]
      simp only [if_neg hlen, if_pos hcond, List.mem_cons]
      rw [ih]
      constructor
      · rintro (rfl | ⟨s, hs, he⟩)
        · exact ⟨cur, Or.inl rfl, (emits_iff_of_target hlen hcond).mpr rfl⟩
        · exact ⟨s, Or.inr hs, he⟩
      · rintro ⟨s, rfl | hs, he⟩
        · exact Or.inl ((emits_iff_of_target hlen hcond).mp he)
        · exact Or.inr ⟨s, hs, he⟩
  | case4 cur rest hlen hcond ih =>
      rw [findPathsGo.eq_def]
      simp only [if_neg hlen, if_neg hcond]
      rw [List.mem_append, ih]
      simp only [List.mem_append, List.mem_cons]
      constructor
      · rintro (hp | ⟨s, hs | hs, he⟩)
        · refine ⟨cur, Or.inl rfl, ?_⟩
          rw [emits_iff_of_not_target hlen hcond]
          by_cases hg : endIdTruthy endId = false ∧ cur.nodePath.length > 1
          · rw [if_pos hg, List.mem_singleton] at hp
            exact Or.inl ⟨hg.1, hg.2, hp⟩
          · rw [if_neg hg] at hp
            exact absurd hp (List.not_mem_nil p)
        · exact ⟨s, Or.inr hs, he⟩
        · exact ⟨cur, Or.inl rfl, Emits.step hlen hcond hs he⟩
      · rintro ⟨s, rfl | hs, he⟩
        · rw [emits_iff_of_not_target hlen hcond] at he
          rcases he with ⟨h2, h3, hp⟩ | ⟨t, ht, hemit⟩
          · subst hp
            refine Or.inl ?_
            rw [if_pos ⟨h2, h3⟩]
            exact List.mem_singleton.mpr rfl
          · exact Or.inr ⟨t, Or.inr ht, hemit⟩
        · exact Or.inr ⟨s, Or.inl hs, he⟩

/-- The paths returned by `findPaths` are exactly the emissions of the
initial frontier state. -/
theorem mem_findPaths_iff (network : DonorMediaNetwork) (startId : String)
    (endId : Option String) (options : PathFinderOptions) (p : MoneyPath) :
    p ∈ findPaths network startId endId options ↔
      Emits (buildAdjacencyMap network options.filterByRelationship)
        (buildNodeMap network.nodes) endId options.maxHops
        options.filterByNodeType
        { nodeId := startId, nodePath := [startId], linkPath := [], totalAmount := 0 } p := by
  rw [findPaths, sortPathsByAmount, List.mem_mergeSort, mem_findPathsGo_iff]
  simp

/-- Membership characterization of the pushed extensions. -/
theorem mem_stateExtensions_iff {adj : AdjacencyMap} {nm : NodeMap}
    {fbnt : Option (List String)} {cur t : BfsState} :
    t ∈ stateExtensions adj nm fbnt cur ↔
      ∃ e ∈ adjGet adj cur.nodeId,
        e.targetId ∉ cur.nodePath ∧
        nodeTypeBlocked fbnt (nodeMapGet nm e.targetId) = false ∧
        t = { nodeId := e.targetId
              nodePath := cur.nodePath ++ [e.targetId]
              linkPath := cur.linkPath ++ [e.link]
              totalAmount := cur.totalAmount + e.link.amount.getD 0 } := by
  simp only [stateExtensions, List.mem_filterMap]
  constructor
  · rintro ⟨e, he, h⟩
    refine ⟨e, he, ?_⟩
    split at h
    · exact absurd h (by simp)
    · split at h
      · exact absurd h (by simp)
      · rw [Option.some_inj] at h
        refine ⟨by simpa using (by assumption : ¬ cur.nodePath.contains e.targetId = true),
          by simpa using (by assumption : ¬ nodeTypeBlocked fbnt (nodeMapGet nm e.targetId) = true),
          h.symm⟩
  · rintro ⟨e, he, h1, h2, rfl⟩
    refine ⟨e, he, ?_⟩
    rw [if_neg (by simpa using h1), if_neg (by simp [h2])]

/-- Invariant of every frontier state reachable from the initial state: the
node path is nonempty, starts at the start id, ends at the current node id,
repeats no id, and has one more entry than the link path. -/
def StateInv (startId : String) (s : BfsState) : Prop :=
  s.nodePath ≠ [] ∧
  s.nodePath.head? = some startId ∧
  s.nodePath.getLast? = some s.nodeId ∧
  s.nodePath.Nodup ∧
  s.nodePath.length = s.linkPath.length + 1

theorem stateInv_init (startId : String) :
    StateInv startId { nodeId := startId, nodePath := [startId], linkPath := [], totalAmount := 0 } := by
  refine ⟨by simp, by simp, by simp, by simp, by simp⟩

theorem stateInv_extension {adj : AdjacencyMap} {nm : NodeMap}
    {fbnt : Option (List String)} {startId : String} {cur t : BfsState}
    (hinv : StateInv startId cur) (ht : t ∈ stateExtensions adj nm fbnt cur) :
    StateInv startId t := by
  obtain ⟨e, -, hfresh, -, rfl⟩ := mem_stateExtensions_iff.mp ht
  obtain ⟨hne, hhead, -, hnodup, hlen⟩ := hinv
  refine ⟨by simp, ?_, ?_, ?_, ?_⟩
  · simpa [List.head?_append_of_ne_nil, hne] using hhead
  · simp
  · simp [List.nodup_append, hnodup, hfresh]
  · simp [hlen]

/-- Master soundness lemma: every emission of a state satisfying the
invariant is the path of a frontier state that satisfies the invariant, is
within the hop budget, reaches beyond the start, and sits at the target when
one was given. -/
theorem emits_sound {adj : AdjacencyMap} {nm : NodeMap}
    {endId : Option String} {maxHops : Int} {fbnt : Option (List String)}
    {s : BfsState} {p : MoneyPath} {startId : String}
    (h : Emits adj nm endId maxHops fbnt s p) (hinv : StateInv startId s) :
    ∃ t : BfsState, StateInv startId t ∧
      ¬ ((t.nodePath.length : Int) > maxHops + 1) ∧
      t.nodePath.length > 1 ∧
      (endIdTruthy endId = true → endId = some t.nodeId) ∧
      p = statePath nm t := by
  induction h with
  | hereTarget h1 h2 h3 h4 =>
      exact ⟨_, hinv, h1, h4, fun _ => h3, rfl⟩
  | hereNull h1 h2 h3 =>
      refine ⟨_, hinv, h1, h3, ?_, rfl⟩
      intro ht
      rw [h2] at ht
      cases ht
  | step h1 h2 h3 h4 ih =>
      exact ih (stateInv_extension hinv h3)

/-- `nodeMapSet` with a node under its own id preserves the property that
every stored value's id is its key. -/
theorem nodeMapSet_mem_id (m : NodeMap)
    (hm : ∀ q ∈ m, q.2.id = q.1) (x : NetworkNode) :
    ∀ q ∈ nodeMapSet m x.id x, q.2.id = q.1 := by
  induction m with
  | nil =>
      intro r hr
      simp only [nodeMapSet, List.mem_singleton] at hr
      subst hr
      rfl
  | cons y ys ihm =>
      intro r hr
      simp only [nodeMapSet] at hr
      split at hr
      · rcases List.mem_cons.mp hr with rfl | hmem
        · rfl
        · exact hm r (List.mem_cons_of_mem _ hmem)
      · rcases List.mem_cons.mp hr with rfl | hmem
        · exact hm _ (List.mem_cons_self _ _)
        · exact ihm (fun q hq => hm q (List.mem_cons_of_mem _ hq)) r hmem

/-- Every pair stored while building the node map is a node under its own
id. -/
theorem buildNodeMap_fold_id (nodes : List NetworkNode) :
    ∀ (m : NodeMap), (∀ q ∈ m, q.2.id = q.1) →
      ∀ q ∈ nodes.foldl (fun m n => nodeMapSet m n.id n) m, q.2.id = q.1 := by
  induction nodes with
  | nil => intro m hm; exact hm
  | cons x xs ih =>
      intro m hm q hq
      exact ih (nodeMapSet m x.id x) (nodeMapSet_mem_id m hm x) q hq

/-- Every value stored in the node map is a node whose id is its key. -/
theorem buildNodeMap_id (nodes : List NetworkNode) (k : String)
    (n : NetworkNode) (h : nodeMapGet (buildNodeMap nodes) k = some n) :
    n.id = k := by
  unfold nodeMapGet at h
  rcases hfind : (buildNodeMap nodes).find? (fun p => p.1 = k) with - | q
  · rw [hfind] at h
    cases h
  · rw [hfind] at h
    simp only [Option.map, Option.some_inj] at h
    have hq := List.mem_of_find?_eq_some hfind
    have hid := buildNodeMap_fold_id nodes [] (by simp) q hq
    have hkey : q.1 = k := by simpa using List.find?_some hfind
    rw [← h, hid, hkey]

/-- The ids of the resolved nodes of a path form a sublist of the raw
node-id path. -/
theorem filterMap_nodeMapGet_ids (nodes : List NetworkNode) (l : List String) :
    ((l.filterMap (nodeMapGet (buildNodeMap nodes))).map NetworkNode.id).Sublist l := by
  induction l with
  | nil => simp
  | cons x xs ih =>
      rcases hx : nodeMapGet (buildNodeMap nodes) x with - | n
      · simp only [List.filterMap_cons, hx]
        exact ih.cons x
      · simp only [List.filterMap_cons, hx, List.map_cons]
        rw [buildNodeMap_id nodes x n hx]
        exact ih.cons₂ x

/-- A nonempty duplicate-free list longer than one element cannot start and
end with the same element. -/
theorem nodup_head_getLast_le {l : List String} (hnd : l.Nodup) (a : String)
    (h1 : l.head? = some a) (h2 : l.getLast? = some a) : l.length ≤ 1 := by
  rw [List.getLast?_eq_some_iff] at h2
  obtain ⟨l₀, rfl⟩ := h2
  cases l₀ with
  | nil => simp
  | cons b bs =>
      exfalso
      simp only [List.cons_append, List.head?_cons, Option.some_inj] at h1
      subst h1
      rw [List.nodup_append] at hnd
      exact hnd.2.2 (List.mem_cons_self _ _) (by simp)

/-- Example graph of the specification scenario:
`A (donor) → B (foundation) → C (media)`. -/
def nodeA : NetworkNode := { id := "A", name := "Donor A", type := "donor" }

def nodeB : NetworkNode := { id := "B", name := "Foundation B", type := "foundation" }

def nodeC : NetworkNode := { id := "C", name := "Media C", type := "media" }

def linkAB : NetworkLink :=
  { source := "A", target := "B", relationship := "funds", amount := some 1000000 }

def linkBC : NetworkLink :=
  { source := "B", target := "C", relationship := "funds", amount := some 900000 }

def exampleNetwork : DonorMediaNetwork :=
  { nodes := [nodeA, nodeB, nodeC], links := [linkAB, linkBC] }

def pathAB : MoneyPath :=
  { nodes := [nodeA, nodeB], links := [linkAB], totalAmount := 1000000, hopCount := 1 }

def pathABC : MoneyPath :=
  { nodes := [nodeA, nodeB, nodeC], links := [linkAB, linkBC],
    totalAmount := 1900000, hopCount := 2 }

/-- Concrete evaluation of the scenario: two paths, the two-hop one first. -/
theorem exampleNetwork_findPaths :
    findPaths exampleNetwork "A" none { maxHops := 2 } = [pathABC, pathAB] := by
  simp [findPaths, findPathsGo, endIdTruthy, buildAdjacencyMap, buildNodeMap, nodeA, nodeB, nodeC,
    linkAB, linkBC, exampleNetwork, pathAB, pathABC, adjPush, nodeMapSet,
    relationshipExcluded, adjGet, nodeMapGet, stateExtensions, statePath,
    nodeTypeBlocked, sortPathsByAmount, List.mergeSort, List.find?]

/-- C1: for every graph `G`, start id `s` and hop limit `h ≥ 1`, every path
returned by `findPaths G s null {maxHops := h}` has a node-id sequence with
no repeated id (simple-path invariant) and contains at most `h` edges. -/
theorem findPaths_null_simple_and_hop_bounded (network : DonorMediaNetwork)
    (startId : String) (h : Int) (hh : 1 ≤ h) (p : MoneyPath)
    (hp : p ∈ findPaths network startId none { maxHops := h }) :
    (p.nodes.map NetworkNode.id).Nodup ∧ (p.hopCount : Int) ≤ h := by
  rw [mem_findPaths_iff] at hp
  obtain ⟨t, hinv, hbudget, hlong, -, rfl⟩ := emits_sound hp (stateInv_init startId)
  obtain ⟨-, -, -, hnodup, hcount⟩ := hinv
  constructor
  · exact (filterMap_nodeMapGet_ids network.nodes t.nodePath).nodup hnodup
  · have hb : ¬ ((t.nodePath.length : Int) > h + 1) := by simpa using hbudget
    simp only [statePath]
    omega

theorem findPaths_null_simple_and_hop_bounded_witness :
    ((pathABC.nodes.map NetworkNode.id).Nodup ∧ ((pathABC.hopCount : Int) ≤ 2)) :=
  findPaths_null_simple_and_hop_bounded exampleNetwork "A" 2 (by norm_num) pathABC
    (by rw [exampleNetwork_findPaths]; simp)

/-- C10 (amended): for every graph, options and nonempty start id,
`findPaths` with the target id equal to the start id returns the empty list:
the start state is a one-node path and is never emitted, and cycle avoidance
prevents any longer path from returning to the start.  With the empty-string
id the target is falsy in JavaScript and the call degenerates to a
null-target search (see the counterexample). -/
theorem findPaths_self_target_empty (network : DonorMediaNetwork)
    (startId : String) (options : PathFinderOptions) (hid : startId ≠ "") :
    findPaths network startId (some startId) options = [] := by
  rw [List.eq_nil_iff_forall_not_mem]
  intro p hp
  rw [mem_findPaths_iff] at hp
  obtain ⟨t, hinv, -, hlong, hend, -⟩ := emits_sound hp (stateInv_init startId)
  obtain ⟨-, hhead, hlast, hnodup, -⟩ := hinv
  have htr : endIdTruthy (some startId) = true := by
    simp [endIdTruthy, hid]
  have hnode := hend htr
  rw [Option.some_inj] at hnode
  have := nodup_head_getLast_le hnodup startId hhead (by rw [hlast, hnode])
  omega

theorem findPaths_self_target_empty_witness :
    findPaths exampleNetwork "A" (some "A") { maxHops := 2 } = [] :=
  findPaths_self_target_empty exampleNetwork "A" { maxHops := 2 } (by decide)

/-- An adjacency entry occurring anywhere in the map. -/
def AdjMem (adj : AdjacencyMap) (e : AdjEntry) : Prop :=
  ∃ k, e ∈ adjGet adj k

theorem adjGet_cons_self (k : String) (vs : List AdjEntry) (rest : AdjacencyMap) :
    adjGet ((k, vs) :: rest) k = vs := by
  rw [adjGet, List.find?_cons_of_pos _ (by simp)]
  rfl

theorem adjGet_cons_ne (k₀ : String) (vs : List AdjEntry) (rest : AdjacencyMap)
    (k : String) (h : k₀ ≠ k) : adjGet ((k₀, vs) :: rest) k = adjGet rest k := by
  rw [adjGet, List.find?_cons_of_neg _ (by simpa using h)]
  rfl

theorem adjGet_adjPush_self (m : AdjacencyMap) (k : String) (v : AdjEntry) :
    adjGet (adjPush m k v) k = adjGet m k ++ [v] := by
  induction m with
  | nil =>
      simp only [adjPush]
      rw [adjGet_cons_self]
      simp [adjGet]
  | cons p rest ih =>
      obtain ⟨k₀, vs⟩ := p
      simp only [adjPush]
      by_cases h : k₀ = k
      · subst h
        rw [if_pos rfl, adjGet_cons_self, adjGet_cons_self]
      · rw [if_neg h, adjGet_cons_ne _ _ _ _ h, adjGet_cons_ne _ _ _ _ h, ih]

theorem adjGet_adjPush_ne (m : AdjacencyMap) (k kq : String) (v : AdjEntry)
    (h : kq ≠ k) : adjGet (adjPush m k v) kq = adjGet m kq := by
  induction m with
  | nil =>
      simp only [adjPush]
      rw [adjGet_cons_ne _ _ _ _ (fun hc => h hc.symm)]
  | cons p rest ih =>
      obtain ⟨k₀, vs⟩ := p
      simp only [adjPush]
      by_cases h₀ : k₀ = k
      · rw [if_pos h₀]
        by_cases h₁ : k₀ = kq
        · exact absurd (h₁.symm.trans h₀) h
        · rw [adjGet_cons_ne _ _ _ _ h₁, adjGet_cons_ne _ _ _ _ h₁]
      · rw [if_neg h₀]
        by_cases h₁ : k₀ = kq
        · subst h₁
          rw [adjGet_cons_self, adjGet_cons_self]
        · rw [adjGet_cons_ne _ _ _ _ h₁, adjGet_cons_ne _ _ _ _ h₁, ih]

theorem adjMem_adjPush {m : AdjacencyMap} {k : String} {v e : AdjEntry}
    (h : AdjMem (adjPush m k v) e) : AdjMem m e ∨ e = v := by
  obtain ⟨kq, hk⟩ := h
  by_cases hkk : kq = k
  · subst hkk
    rw [adjGet_adjPush_self] at hk
    rcases List.mem_append.mp hk with hm | hv
    · exact Or.inl ⟨kq, hm⟩
    · exact Or.inr (by simpa using hv)
  · rw [adjGet_adjPush_ne _ _ _ _ hkk] at hk
    exact Or.inl ⟨kq, hk⟩

/-- Every entry of the built adjacency map points at an endpoint of one of
the graph's links and carries that link. -/
theorem adjMem_buildAdjacencyMap {network : DonorMediaNetwork}
    {fbr : Option (List String)} {e : AdjEntry}
    (h : AdjMem (buildAdjacencyMap network fbr) e) :
    ∃ link ∈ network.links,
      e = ⟨link.target, link⟩ ∨ e = ⟨link.source, link⟩ := by
  rw [buildAdjacencyMap] at h
  have key : ∀ (links : List NetworkLink) (m : AdjacencyMap),
      AdjMem (links.foldl
        (fun m link =>
          if relationshipExcluded fbr link then m
          else adjPush (adjPush m link.source ⟨link.target, link⟩)
            link.target ⟨link.source, link⟩) m) e →
      AdjMem m e ∨
        ∃ link ∈ links, e = ⟨link.target, link⟩ ∨ e = ⟨link.source, link⟩ := by
    intro links
    induction links with
    | nil =>
        intro m h₀
        exact Or.inl h₀
    | cons l ls ih =>
        intro m h₀
        simp only [List.foldl_cons] at h₀
        rcases ih _ h₀ with hstep | ⟨link, hmem, hor⟩
        · split at hstep
          · exact Or.inl hstep
          · rcases adjMem_adjPush hstep with hrest | rfl
            · rcases adjMem_adjPush hrest with hrest₀ | rfl
              · exact Or.inl hrest₀
              · exact Or.inr ⟨l, List.mem_cons_self _ _, Or.inl rfl⟩
            · exact Or.inr ⟨l, List.mem_cons_self _ _, Or.inr rfl⟩
        · exact Or.inr ⟨link, List.mem_cons_of_mem _ hmem, hor⟩
  rcases key network.links [] h with hempty | hgoal
  · obtain ⟨k, hk⟩ := hempty
    simp [adjGet] at hk
  · exact hgoal

theorem nodeMapGet_cons_self (k : String) (v : NetworkNode) (rest : NodeMap) :
    nodeMapGet ((k, v) :: rest) k = some v := by
  rw [nodeMapGet, List.find?_cons_of_pos _ (by simp)]
  rfl

theorem nodeMapGet_cons_ne (k₀ : String) (v₀ : NetworkNode) (rest : NodeMap)
    (k : String) (h : k₀ ≠ k) :
    nodeMapGet ((k₀, v₀) :: rest) k = nodeMapGet rest k := by
  rw [nodeMapGet, List.find?_cons_of_neg _ (by simpa using h)]
  rfl

theorem nodeMapGet_nodeMapSet_self (m : NodeMap) (k : String) (v : NetworkNode) :
    nodeMapGet (nodeMapSet m k v) k = some v := by
  induction m with
  | nil =>
      simp only [nodeMapSet]
      rw [nodeMapGet_cons_self]
  | cons p rest ih =>
      obtain ⟨k₀, v₀⟩ := p
      simp only [nodeMapSet]
      by_cases h : k₀ = k
      · rw [if_pos h, nodeMapGet_cons_self]
      · rw [if_neg h, nodeMapGet_cons_ne _ _ _ _ h, ih]

theorem nodeMapGet_nodeMapSet_ne (m : NodeMap) (k kq : String) (v : NetworkNode)
    (h : kq ≠ k) : nodeMapGet (nodeMapSet m k v) kq = nodeMapGet m kq := by
  induction m with
  | nil =>
      simp only [nodeMapSet]
      rw [nodeMapGet_cons_ne _ _ _ _ (fun hc => h hc.symm)]
  | cons p rest ih =>
      obtain ⟨k₀, v₀⟩ := p
      simp only [nodeMapSet]
      by_cases h₀ : k₀ = k
      · rw [if_pos h₀]
        rw [nodeMapGet_cons_ne _ _ _ _ (fun hc => h hc.symm)]
        by_cases h₁ : k₀ = kq
        · exact absurd (h₁.symm.trans h₀) h
        · rw [nodeMapGet_cons_ne _ _ _ _ h₁]
      · rw [if_neg h₀]
        by_cases h₁ : k₀ = kq
        · subst h₁
          rw [nodeMapGet_cons_self, nodeMapGet_cons_self]
        · rw [nodeMapGet_cons_ne _ _ _ _ h₁, nodeMapGet_cons_ne _ _ _ _ h₁, ih]

/-- Every id of the node list resolves in the built node map. -/
theorem buildNodeMap_isSome_of_mem (nodes : List NetworkNode) (k : String)
    (hk : k ∈ nodes.map NetworkNode.id) :
    (nodeMapGet (buildNodeMap nodes) k).isSome := by
  have key : ∀ (ns : List NetworkNode) (m : NodeMap),
      ((nodeMapGet m k).isSome ∨ k ∈ ns.map NetworkNode.id) →
      (nodeMapGet (ns.foldl (fun m n => nodeMapSet m n.id n) m) k).isSome := by
    intro ns
    induction ns with
    | nil =>
        intro m hm
        rcases hm with hm | hm
        · exact hm
        · simp at hm
    | cons x xs ih =>
        intro m hm
        simp only [List.foldl_cons]
        refine ih (nodeMapSet m x.id x) ?_
        by_cases hx : k = x.id
        · subst hx
          rw [nodeMapGet_nodeMapSet_self]
          exact Or.inl rfl
        · rw [nodeMapGet_nodeMapSet_ne _ _ _ _ hx]
          rcases hm with hm | hm
          · exact Or.inl hm
          · simp only [List.map_cons, List.mem_cons] at hm
            rcases hm with hc | hc
            · exact absurd hc hx
            · exact Or.inr hc
  exact key nodes [] (Or.inr hk)

/-- When every id of `l` resolves, the resolved nodes' ids are exactly `l`. -/
theorem filterMap_nodeMapGet_all (nodes : List NetworkNode) (l : List String)
    (hres : ∀ k ∈ l, k ∈ nodes.map NetworkNode.id) :
    (l.filterMap (nodeMapGet (buildNodeMap nodes))).map NetworkNode.id = l := by
  induction l with
  | nil => simp
  | cons x xs ih =>
      have hx := buildNodeMap_isSome_of_mem nodes x (hres x (List.mem_cons_self _ _))
      rcases hget : nodeMapGet (buildNodeMap nodes) x with - | n
      · rw [hget] at hx
        cases hx
      · simp only [List.filterMap_cons, hget, List.map_cons]
        rw [buildNodeMap_id nodes x n hget,
          ih (fun k hk => hres k (List.mem_cons_of_mem _ hk))]

/-- Every id on the node path is the start id or the target of an adjacency
entry. -/
def StateIdsOk (adj : AdjacencyMap) (startId : String) (s : BfsState) : Prop :=
  ∀ i ∈ s.nodePath, i = startId ∨ ∃ e, AdjMem adj e ∧ i = e.targetId

theorem stateIdsOk_init (adj : AdjacencyMap) (startId : String) :
    StateIdsOk adj startId
      { nodeId := startId, nodePath := [startId], linkPath := [], totalAmount := 0 } := by
  intro i hi
  simp only [List.mem_singleton] at hi
  exact Or.inl hi

theorem stateIdsOk_extension {adj : AdjacencyMap} {nm : NodeMap}
    {fbnt : Option (List String)} {startId : String} {cur t : BfsState}
    (hids : StateIdsOk adj startId cur) (ht : t ∈ stateExtensions adj nm fbnt cur) :
    StateIdsOk adj startId t := by
  obtain ⟨e, he, -, -, rfl⟩ := mem_stateExtensions_iff.mp ht
  intro i hi
  rcases List.mem_append.mp hi with hi | hi
  · exact hids i hi
  · simp only [List.mem_singleton] at hi
    exact Or.inr ⟨e, ⟨cur.nodeId, he⟩, hi⟩

/-- Master soundness lemma with id provenance: as `emits_sound`, with the
additional invariant that every id on the emitted state's node path is the
start id or an adjacency-entry target. -/
theorem emits_sound_resolved {adj : AdjacencyMap} {nm : NodeMap}
    {endId : Option String} {maxHops : Int} {fbnt : Option (List String)}
    {s : BfsState} {p : MoneyPath} {startId : String}
    (h : Emits adj nm endId maxHops fbnt s p) (hinv : StateInv startId s)
    (hids : StateIdsOk adj startId s) :
    ∃ t : BfsState, StateInv startId t ∧ StateIdsOk adj startId t ∧
      ¬ ((t.nodePath.length : Int) > maxHops + 1) ∧
      t.nodePath.length > 1 ∧
      (endIdTruthy endId = true → endId = some t.nodeId) ∧
      p = statePath nm t := by
  induction h with
  | hereTarget h1 h2 h3 h4 =>
      exact ⟨_, hinv, hids, h1, h4, fun _ => h3, rfl⟩
  | hereNull h1 h2 h3 =>
      refine ⟨_, hinv, hids, h1, h3, ?_, rfl⟩
      intro ht
      rw [h2] at ht
      cases ht
  | step h1 h2 h3 h4 ih =>
      exact ih (stateInv_extension hinv h3) (stateIdsOk_extension hids h3)

/-- Concrete evaluation of the scenario graph with target `C`. -/
theorem exampleNetwork_findPaths_toC :
    findPaths exampleNetwork "A" (some "C") { maxHops := 2 } = [pathABC] := by
  simp [findPaths, findPathsGo, endIdTruthy, buildAdjacencyMap, buildNodeMap, nodeA, nodeB, nodeC,
    linkAB, linkBC, exampleNetwork, pathABC, adjPush, nodeMapSet,
    relationshipExcluded, adjGet, nodeMapGet, stateExtensions, statePath,
    nodeTypeBlocked, sortPathsByAmount, List.mergeSort, List.find?]

/-- C4: when a nonempty target id is given and the graph is well formed (the
start id and every link endpoint resolve in the node set), every path returned
by `findPaths` starts at the start id, ends exactly at the target id, and
contains at least one edge. -/
theorem findPaths_target_starts_and_ends (network : DonorMediaNetwork)
    (startId endId : String) (options : PathFinderOptions)
    (htne : endId ≠ "")
    (hstart : startId ∈ network.nodes.map NetworkNode.id)
    (hlinks : ∀ link ∈ network.links,
      link.source ∈ network.nodes.map NetworkNode.id ∧
      link.target ∈ network.nodes.map NetworkNode.id)
    (p : MoneyPath) (hp : p ∈ findPaths network startId (some endId) options) :
    (p.nodes.map NetworkNode.id).head? = some startId ∧
    (p.nodes.map NetworkNode.id).getLast? = some endId ∧
    1 ≤ p.hopCount := by
  rw [mem_findPaths_iff] at hp
  obtain ⟨t, hinv, hids, -, hlong, hend, rfl⟩ :=
    emits_sound_resolved hp (stateInv_init startId)
      (stateIdsOk_init (buildAdjacencyMap network options.filterByRelationship) startId)
  obtain ⟨-, hhead, hlast, -, hcount⟩ := hinv
  have hres : ∀ k ∈ t.nodePath, k ∈ network.nodes.map NetworkNode.id := by
    intro k hk
    rcases hids k hk with rfl | ⟨e, hmem, rfl⟩
    · exact hstart
    · obtain ⟨link, hlink, hor⟩ := adjMem_buildAdjacencyMap hmem
      rcases hor with rfl | rfl
      · exact (hlinks link hlink).2
      · exact (hlinks link hlink).1
  have hmap : ((statePath (buildNodeMap network.nodes) t).nodes.map NetworkNode.id) =
      t.nodePath := filterMap_nodeMapGet_all network.nodes t.nodePath hres
  have htr : endIdTruthy (some endId) = true := by
    simp [endIdTruthy, htne]
  have hnode := hend htr
  rw [Option.some_inj] at hnode
  refine ⟨?_, ?_, ?_⟩
  · rw [hmap]
    exact hhead
  · rw [hmap, hlast, hnode]
  · simp only [statePath]
    omega

theorem findPaths_target_starts_and_ends_witness :
    ((pathABC.nodes.map NetworkNode.id).head? = some "A" ∧
     (pathABC.nodes.map NetworkNode.id).getLast? = some "C" ∧
     1 ≤ pathABC.hopCount) :=
  findPaths_target_starts_and_ends exampleNetwork "A" "C" { maxHops := 2 }
    (by decide)
    (by simp [exampleNetwork, nodeA, nodeB, nodeC])
    (by
      intro link hlink
      simp only [exampleNetwork, List.mem_cons, List.not_mem_nil, or_false] at hlink
      rcases hlink with rfl | rfl
      · simp [linkAB, exampleNetwork, nodeA, nodeB, nodeC]
      · simp [linkBC, exampleNetwork, nodeA, nodeB, nodeC])
    pathABC (by rw [exampleNetwork_findPaths_toC]; simp)

/-- A walk through the adjacency index: from a node, each step follows one of
its adjacency entries. -/
inductive AdjChain (adj : AdjacencyMap) : String → List String → List NetworkLink → Prop
  | nil (a : String) : AdjChain adj a [] []
  | cons {a b : String} {link : NetworkLink} {ids : List String}
      {links : List NetworkLink} :
      (⟨b, link⟩ : AdjEntry) ∈ adjGet adj a →
      AdjChain adj b ids links →
      AdjChain adj a (b :: ids) (link :: links)

/-- The frontier state reached from `s` after walking a chain. -/
def chainState (s : BfsState) (ids : List String) (links : List NetworkLink) :
    BfsState :=
  { nodeId := ids.getLastD s.nodeId
    nodePath := s.nodePath ++ ids
    linkPath := s.linkPath ++ links
    totalAmount := s.totalAmount + (links.map (fun l => l.amount.getD 0)).sum }

/-- The initial frontier state of `findPaths`. -/
def bfsInit (startId : String) : BfsState :=
  { nodeId := startId, nodePath := [startId], linkPath := [], totalAmount := 0 }

/-- BFS completeness (no target, no filters): every duplicate-free nonempty
chain within the hop budget is emitted. -/
theorem emits_of_adjChain (adj : AdjacencyMap) (nm : NodeMap) (maxHops : Int)
    (a : String) (ids : List String) (links : List NetworkLink)
    (hchain : AdjChain adj a ids links) :
    ∀ s : BfsState, s.nodeId = a → (s.nodePath ++ ids).Nodup → ids ≠ [] →
      ((s.nodePath.length + ids.length : Nat) : Int) ≤ maxHops + 1 →
      s.nodePath ≠ [] →
      Emits adj nm none maxHops none s (statePath nm (chainState s ids links)) := by
  induction hchain with
  | nil a₀ =>
      intro s hsa hnodup hne hbound hpos
      exact absurd rfl hne
  | cons hb hchain₀ ih =>
      rename_i a₀ b link ids₀ links₀
      intro s hsa hnodup hne hbound hpos
      have hslen : 1 ≤ s.nodePath.length := List.length_pos.mpr hpos
      have hbound₂ : (s.nodePath.length : Int) + (ids₀.length : Int) + 1 ≤ maxHops + 1 := by
        simp only [List.length_cons] at hbound
        push_cast at hbound
        omega
      have hdropS : ¬ ((s.nodePath.length : Int) > maxHops + 1) := by omega
      have hbfresh : b ∉ s.nodePath := by
        rw [List.nodup_append] at hnodup
        exact fun hc => hnodup.2.2 hc (List.mem_cons_self _ _)
      have htmem : (⟨b, s.nodePath ++ [b], s.linkPath ++ [link],
          s.totalAmount + link.amount.getD 0⟩ : BfsState) ∈
          stateExtensions adj nm none s := by
        rw [mem_stateExtensions_iff]
        exact ⟨⟨b, link⟩, by rw [hsa]; exact hb, hbfresh, rfl, rfl⟩
      cases hchain₀ with
      | nil =>
          have hstate : chainState s [b] [link] =
              (⟨b, s.nodePath ++ [b], s.linkPath ++ [link],
                s.totalAmount + link.amount.getD 0⟩ : BfsState) := by
            simp [chainState]
          rw [hstate]
          refine Emits.step hdropS (by simp [endIdTruthy]) htmem ?_
          refine Emits.hereNull ?_ rfl ?_
          · simp only [List.length_append, List.length_singleton]
            push_cast
            omega
          · simp only [List.length_append, List.length_singleton]
            omega
      | cons hb₂ hchain₂ =>
          rename_i c link₂ ids₂ links₂
          have hstate : chainState s (b :: c :: ids₂) (link :: link₂ :: links₂) =
              chainState (⟨b, s.nodePath ++ [b], s.linkPath ++ [link],
                s.totalAmount + link.amount.getD 0⟩ : BfsState)
                (c :: ids₂) (link₂ :: links₂) := by
            simp only [chainState, List.getLastD_cons, List.append_assoc,
              List.cons_append, List.nil_append, List.map_cons, List.sum_cons,
              BfsState.mk.injEq]
            refine ⟨trivial, trivial, trivial, by ring⟩
          rw [hstate]
          refine Emits.step hdropS (by simp [endIdTruthy]) htmem ?_
          refine ih _ rfl ?_ (by simp) ?_ (by simp)
          · simpa [List.append_assoc] using hnodup
          · simp at hbound ⊢
            omega

/-- Completeness at the top level: every simple nonempty chain from the
start id within the hop budget appears among the returned paths, with its
resolved nodes, its links, its amount sum and its hop count. -/
theorem findPaths_null_complete (network : DonorMediaNetwork) (startId : String)
    (h : Int) (ids : List String) (links : List NetworkLink)
    (hchain : AdjChain (buildAdjacencyMap network none) startId ids links)
    (hnodup : (startId :: ids).Nodup) (hne : ids ≠ [])
    (hbound : (ids.length : Int) ≤ h) :
    ∃ p ∈ findPaths network startId none { maxHops := h },
      p.nodes = (startId :: ids).filterMap (nodeMapGet (buildNodeMap network.nodes)) ∧
      p.links = links ∧
      p.totalAmount = (links.map (fun l => l.amount.getD 0)).sum ∧
      p.hopCount = links.length := by
  have hlenEq : ids.length = links.length := by
    clear hnodup hne hbound
    induction hchain with
    | nil => rfl
    | cons hb hc ih => simpa using ih
  have hem : Emits (buildAdjacencyMap network none) (buildNodeMap network.nodes)
      none h none (bfsInit startId)
      (statePath (buildNodeMap network.nodes) (chainState (bfsInit startId) ids links)) := by
    refine emits_of_adjChain _ _ h startId ids links hchain (bfsInit startId)
      rfl ?_ hne ?_ (by simp [bfsInit])
    · simpa [bfsInit] using hnodup
    · simp only [bfsInit, List.length_singleton]
      push_cast
      omega
  refine ⟨statePath (buildNodeMap network.nodes) (chainState (bfsInit startId) ids links),
    (mem_findPaths_iff network startId none ⟨h, false, none, none⟩ _).mpr hem,
    ?_, ?_, ?_, ?_⟩
  · simp [statePath, chainState, bfsInit]
  · simp [statePath, chainState, bfsInit]
  · simp [statePath, chainState, bfsInit]
  · simp [statePath, chainState, bfsInit, hlenEq]

/-- The returned path list is always sorted by cumulative amount,
descending. -/
theorem findPaths_sorted_amount (network : DonorMediaNetwork) (startId : String)
    (endId : Option String) (options : PathFinderOptions) :
    (findPaths network startId endId options).Pairwise
      (fun a b => b.totalAmount ≤ a.totalAmount) := by
  rw [findPaths, sortPathsByAmount]
  refine List.Pairwise.imp (fun hab => ?_) (List.sorted_mergeSort ?_ ?_ _)
  · exact of_decide_eq_true hab
  · intro a b c hab hbc
    simp only [decide_eq_true_eq] at *
    exact le_trans hbc hab
  · intro a b
    simp only [Bool.or_eq_true, decide_eq_true_eq]
    exact le_total b.totalAmount a.totalAmount

/-- C2: on the scenario graph `A(donor)→B(foundation)→C(media)` with amounts
1,000,000 and 900,000, `findPaths(G, "A", null, {maxHops: 2})` returns
exactly `[A,B,C]` (amount 1,900,000) and `[A,B]` (amount 1,000,000), the
two-hop path first; in general with no target every simple nonempty
adjacency chain within the hop budget is emitted, and results are sorted by
cumulative amount descending. -/
theorem findPaths_scenario_complete_sorted :
    (findPaths exampleNetwork "A" none { maxHops := 2 } = [pathABC, pathAB]) ∧
    (∀ (network : DonorMediaNetwork) (startId : String) (h : Int)
       (ids : List String) (links : List NetworkLink),
       AdjChain (buildAdjacencyMap network none) startId ids links →
       (startId :: ids).Nodup → ids ≠ [] → (ids.length : Int) ≤ h →
       ∃ p ∈ findPaths network startId none { maxHops := h },
         p.nodes = (startId :: ids).filterMap (nodeMapGet (buildNodeMap network.nodes)) ∧
         p.links = links ∧
         p.totalAmount = (links.map (fun l => l.amount.getD 0)).sum ∧
         p.hopCount = links.length) ∧
    (∀ (network : DonorMediaNetwork) (startId : String) (endId : Option String)
       (options : PathFinderOptions),
       (findPaths network startId endId options).Pairwise
         (fun a b => b.totalAmount ≤ a.totalAmount)) :=
  ⟨exampleNetwork_findPaths,
   fun network startId h ids links hchain hnodup hne hbound =>
     findPaths_null_complete network startId h ids links hchain hnodup hne hbound,
   fun network startId endId options =>
     findPaths_sorted_amount network startId endId options⟩

theorem findPaths_scenario_complete_sorted_witness :
    ∃ p ∈ findPaths exampleNetwork "A" none { maxHops := 1 },
      p.nodes = (["A", "B"] : List String).filterMap
        (nodeMapGet (buildNodeMap exampleNetwork.nodes)) ∧
      p.links = [linkAB] ∧
      p.totalAmount = (([linkAB] : List NetworkLink).map (fun l => l.amount.getD 0)).sum ∧
      p.hopCount = ([linkAB] : List NetworkLink).length :=
  findPaths_scenario_complete_sorted.2.1 exampleNetwork "A" 1 ["B"] [linkAB]
    (AdjChain.cons (by decide) (AdjChain.nil "B")) (by decide) (by decide)
    (by norm_num)

/-- Nodes and links of the shell-organization threshold scenarios: donor `D`
funds foundation `F` with 100, which passes 60 + 59 = 119 (flagged) or
60 + 61 = 121 (not flagged) on to two recipients. -/
def donorD : NetworkNode := { id := "D", name := "Donor D", type := "donor" }

def shellF : NetworkNode := { id := "F", name := "Foundation F", type := "foundation" }

def recipR1 : NetworkNode := { id := "R1", name := "Recipient 1", type := "media" }

def recipR2 : NetworkNode := { id := "R2", name := "Recipient 2", type := "media" }

def linkDF : NetworkLink :=
  { source := "D", target := "F", relationship := "grant", amount := some 100 }

def linkFR1 : NetworkLink :=
  { source := "F", target := "R1", relationship := "grant", amount := some 60 }

def linkFR2lo : NetworkLink :=
  { source := "F", target := "R2", relationship := "grant", amount := some 59 }

def linkFR2hi : NetworkLink :=
  { source := "F", target := "R2", relationship := "grant", amount := some 61 }

def shellNet119 : DonorMediaNetwork :=
  { nodes := [donorD, shellF, recipR1, recipR2], links := [linkDF, linkFR1, linkFR2lo] }

def shellNet121 : DonorMediaNetwork :=
  { nodes := [donorD, shellF, recipR1, recipR2], links := [linkDF, linkFR1, linkFR2hi] }

/-- C3: `identifyShellOrgs` flags a node exactly when its type is
`foundation` or `shell_org`, its `getNodeStats` report at least one incoming
and at least two outgoing edges, and the in/out totals differ by strictly
less than 20% of the incoming total; concretely, with incoming 100 and
outgoing 119 the node is flagged, with outgoing 121 it is not. -/
theorem identifyShellOrgs_iff_and_thresholds :
    (∀ (network : DonorMediaNetwork) (node : NetworkNode),
       node ∈ identifyShellOrgs network ↔
         node ∈ network.nodes ∧
         (node.type = "foundation" ∨ node.type = "shell_org") ∧
         1 ≤ (getNodeStats network node.id).incomingCount ∧
         2 ≤ (getNodeStats network node.id).outgoingCount ∧
         |((getNodeStats network node.id).totalFundingReceived : ℚ) -
             ((getNodeStats network node.id).totalFundingGiven : ℚ)| <
           ((getNodeStats network node.id).totalFundingReceived : ℚ) * 0.2) ∧
    shellF ∈ identifyShellOrgs shellNet119 ∧
    shellF ∉ identifyShellOrgs shellNet121 := by
  refine ⟨?_, ?_, ?_⟩
  · intro network node
    rw [identifyShellOrgs, List.mem_filter]
    simp only [Bool.and_eq_true, Bool.or_eq_true, beq_iff_eq, decide_eq_true_eq]
    tauto
  · rw [identifyShellOrgs, List.mem_filter]
    refine ⟨by simp [shellNet119], ?_⟩
    have h119 : getNodeStats shellNet119 shellF.id =
        { incomingCount := 1, outgoingCount := 2, totalFundingReceived := 100,
          totalFundingGiven := 119,
          connectedNodeTypes := [("donor", 1), ("media", 2)] } := by decide
    simp only [h119, Bool.and_eq_true, Bool.or_eq_true, beq_iff_eq,
      decide_eq_true_eq]
    refine ⟨Or.inl rfl, ?_⟩
    rw [abs_lt]
    constructor <;> norm_num
  · rw [identifyShellOrgs, List.mem_filter]
    rintro ⟨-, hpred⟩
    have h121 : getNodeStats shellNet121 shellF.id =
        { incomingCount := 1, outgoingCount := 2, totalFundingReceived := 100,
          totalFundingGiven := 121,
          connectedNodeTypes := [("donor", 1), ("media", 2)] } := by decide
    simp only [h121, Bool.and_eq_true, Bool.or_eq_true, beq_iff_eq,
      decide_eq_true_eq] at hpred
    have habs := hpred.2.2
    rw [abs_lt] at habs
    have := habs.1
    norm_num at this

/-- Two organizations sharing board members `x` and `y`, listed in opposite
orders. -/
def bmNodeA : NetworkNode :=
  { id := "a", name := "Org a", type := "foundation", boardMembers := some ["x", "y"] }

def bmNodeB : NetworkNode :=
  { id := "b", name := "Org b", type := "foundation", boardMembers := some ["y", "x"] }

/-- C6 counterexample: the shared-board-member list follows the second
argument's order, not the first's — on these nodes the result is
`["y", "x"]`, which does not preserve the order of the first node's list
`["x", "y"]`. -/
theorem findSharedBoardMembers_not_first_order :
    findSharedBoardMembers bmNodeA bmNodeB = ["y", "x"] ∧
    ¬ (findSharedBoardMembers bmNodeA bmNodeB).Sublist ["x", "y"] := by
  decide

/-- C6 (amended): `findSharedBoardMembers` returns the set intersection of
the two `boardMembers` sequences as an ordered sequence preserving the order
of the second argument's list, is empty when either node lacks the
attribute, and is symmetric as a set. -/
theorem findSharedBoardMembers_spec :
    (∀ (nodeA nodeB : NetworkNode) (m : String),
       m ∈ findSharedBoardMembers nodeA nodeB ↔
         (∃ la, nodeA.boardMembers = some la ∧ m ∈ la) ∧
         (∃ lb, nodeB.boardMembers = some lb ∧ m ∈ lb)) ∧
    (∀ (nodeA nodeB : NetworkNode) (lb : List String),
       nodeB.boardMembers = some lb →
       (findSharedBoardMembers nodeA nodeB).Sublist lb) ∧
    (∀ (nodeA nodeB : NetworkNode) (m : String),
       m ∈ findSharedBoardMembers nodeA nodeB ↔
       m ∈ findSharedBoardMembers nodeB nodeA) ∧
    (∀ nodeA nodeB : NetworkNode,
       nodeA.boardMembers = none ∨ nodeB.boardMembers = none →
       findSharedBoardMembers nodeA nodeB = []) := by
  have hmem : ∀ (nodeA nodeB : NetworkNode) (m : String),
      m ∈ findSharedBoardMembers nodeA nodeB ↔
        (∃ la, nodeA.boardMembers = some la ∧ m ∈ la) ∧
        (∃ lb, nodeB.boardMembers = some lb ∧ m ∈ lb) := by
    intro nodeA nodeB m
    rcases ha : nodeA.boardMembers with - | la <;>
      rcases hb : nodeB.boardMembers with - | lb <;>
        simp [findSharedBoardMembers, ha, hb, List.mem_filter, and_comm]
  refine ⟨hmem, ?_, ?_, ?_⟩
  · intro nodeA nodeB lb hb
    rcases ha : nodeA.boardMembers with - | la
    · simp [findSharedBoardMembers, ha, hb]
    · simp only [findSharedBoardMembers, ha, hb]
      exact List.filter_sublist lb
  · intro nodeA nodeB m
    rw [hmem, hmem]
    tauto
  · intro nodeA nodeB hor
    rcases hor with ha | hb
    · simp [findSharedBoardMembers, ha]
    · rcases ha : nodeA.boardMembers with - | la <;>
        simp [findSharedBoardMembers, ha, hb]

theorem findSharedBoardMembers_spec_witness :
    (findSharedBoardMembers bmNodeA bmNodeB).Sublist ["y", "x"] :=
  findSharedBoardMembers_spec.2.1 bmNodeA bmNodeB ["y", "x"] rfl

/-- Entries of adjacency lists survive later pushes. -/
theorem adjGet_mono_adjPush {m : AdjacencyMap} {k : String} {e : AdjEntry}
    (k₀ : String) (v : AdjEntry) (h : e ∈ adjGet m k) :
    e ∈ adjGet (adjPush m k₀ v) k := by
  by_cases hk : k = k₀
  · subst hk
    rw [adjGet_adjPush_self]
    exact List.mem_append_left _ h
  · rw [adjGet_adjPush_ne _ _ _ _ hk]
    exact h

theorem adjGet_mono_foldl (fbr : Option (List String)) (links : List NetworkLink)
    (m : AdjacencyMap) (k : String) (e : AdjEntry) (h : e ∈ adjGet m k) :
    e ∈ adjGet (links.foldl
      (fun m link =>
        if relationshipExcluded fbr link then m
        else adjPush (adjPush m link.source ⟨link.target, link⟩)
          link.target ⟨link.source, link⟩) m) k := by
  induction links generalizing m with
  | nil => exact h
  | cons l ls ih =>
      simp only [List.foldl_cons]
      refine ih _ ?_
      split
      · exact h
      · exact adjGet_mono_adjPush _ _ (adjGet_mono_adjPush _ _ h)

/-- Every link surviving the relationship filter sits in the adjacency map
under both endpoints, node resolution notwithstanding. -/
theorem buildAdjacencyMap_mem_adjGet (network : DonorMediaNetwork)
    (fbr : Option (List String)) (link : NetworkLink)
    (hmem : link ∈ network.links) (hok : relationshipExcluded fbr link = false) :
    (⟨link.target, link⟩ : AdjEntry) ∈ adjGet (buildAdjacencyMap network fbr) link.source ∧
    (⟨link.source, link⟩ : AdjEntry) ∈ adjGet (buildAdjacencyMap network fbr) link.target := by
  rw [buildAdjacencyMap]
  have key : ∀ (links : List NetworkLink) (m : AdjacencyMap), link ∈ links →
      (⟨link.target, link⟩ : AdjEntry) ∈ adjGet (links.foldl
        (fun m l =>
          if relationshipExcluded fbr l then m
          else adjPush (adjPush m l.source ⟨l.target, l⟩)
            l.target ⟨l.source, l⟩) m) link.source ∧
      (⟨link.source, link⟩ : AdjEntry) ∈ adjGet (links.foldl
        (fun m l =>
          if relationshipExcluded fbr l then m
          else adjPush (adjPush m l.source ⟨l.target, l⟩)
            l.target ⟨l.source, l⟩) m) link.target := by
    intro links
    induction links with
    | nil =>
        intro m hmem₀
        exact absurd hmem₀ (List.not_mem_nil link)
    | cons l ls ih =>
        intro m hmem₀
        rcases List.mem_cons.mp hmem₀ with rfl | hmem₁
        · simp only [List.foldl_cons, hok, Bool.false_eq_true, if_false]
          constructor
          · refine adjGet_mono_foldl fbr ls _ _ _ ?_
            refine adjGet_mono_adjPush _ _ ?_
            rw [adjGet_adjPush_self]
            exact List.mem_append_right _ (List.mem_singleton.mpr rfl)
          · refine adjGet_mono_foldl fbr ls _ _ _ ?_
            rw [adjGet_adjPush_self]
            exact List.mem_append_right _ (List.mem_singleton.mpr rfl)
        · simp only [List.foldl_cons]
          exact ih _ hmem₁
  exact key network.links [] hmem

/-- A one-node graph with a dangling link `A → X` (`X` resolves to no
node). -/
def nodeA7 : NetworkNode := { id := "A", name := "Lone A", type := "donor" }

def linkAX : NetworkLink :=
  { source := "A", target := "X", relationship := "grant", amount := some 5 }

def danglingNet : DonorMediaNetwork := { nodes := [nodeA7], links := [linkAX] }

/-- Concrete evaluation: the dangling link is traversed; the unresolvable id
`X` is dropped from the node list, but the link stays on the path. -/
theorem danglingNet_findPaths :
    findPaths danglingNet "A" none { maxHops := 1 } =
      [{ nodes := [nodeA7], links := [linkAX], totalAmount := 5, hopCount := 1 }] := by
  simp [findPaths, findPathsGo, endIdTruthy, buildAdjacencyMap, buildNodeMap, nodeA7, linkAX,
    danglingNet, adjPush, nodeMapSet, relationshipExcluded, adjGet, nodeMapGet,
    stateExtensions, statePath, nodeTypeBlocked, sortPathsByAmount,
    List.mergeSort, List.find?]

/-- C7 counterexample: a dangling edge — target id `X` absent from the node
set — is not excluded from traversal: `findPaths` returns a path whose link
list contains it. -/
theorem findPaths_traverses_dangling_edge :
    ("X" ∉ danglingNet.nodes.map NetworkNode.id) ∧
    ∃ p ∈ findPaths danglingNet "A" none { maxHops := 1 }, linkAX ∈ p.links := by
  constructor
  · decide
  · rw [danglingNet_findPaths]
    exact ⟨_, List.mem_singleton.mpr rfl, by simp⟩

/-- C7 (amended): a dangling edge is included in the adjacency map under
both endpoints and is traversed like any other edge: a returned path may
carry it in its link list, with the unresolvable node id silently dropped
from the node list; no error is raised. -/
theorem dangling_edges_traversed :
    (∀ (network : DonorMediaNetwork) (fbr : Option (List String))
       (link : NetworkLink), link ∈ network.links →
       relationshipExcluded fbr link = false →
       (⟨link.target, link⟩ : AdjEntry) ∈
         adjGet (buildAdjacencyMap network fbr) link.source ∧
       (⟨link.source, link⟩ : AdjEntry) ∈
         adjGet (buildAdjacencyMap network fbr) link.target) ∧
    (findPaths danglingNet "A" none { maxHops := 1 } =
      [{ nodes := [nodeA7], links := [linkAX], totalAmount := 5, hopCount := 1 }]) :=
  ⟨buildAdjacencyMap_mem_adjGet, danglingNet_findPaths⟩

theorem dangling_edges_traversed_witness :
    (⟨"X", linkAX⟩ : AdjEntry) ∈ adjGet (buildAdjacencyMap danglingNet none) "A" ∧
    (⟨"A", linkAX⟩ : AdjEntry) ∈ adjGet (buildAdjacencyMap danglingNet none) "X" := by
  have h := dangling_edges_traversed.1 danglingNet none linkAX
    (List.mem_singleton.mpr rfl) rfl
  simpa [linkAX] using h

/-- Concrete evaluation: with the dangling id `X` as target, `findPaths`
returns one path, whose node list is `[A]` — it does not end at `X`. -/
theorem danglingNet_findPaths_toX :
    findPaths danglingNet "A" (some "X") { maxHops := 1 } =
      [{ nodes := [nodeA7], links := [linkAX], totalAmount := 5, hopCount := 1 }] := by
  simp [findPaths, findPathsGo, endIdTruthy, buildAdjacencyMap, buildNodeMap, nodeA7, linkAX,
    danglingNet, adjPush, nodeMapSet, relationshipExcluded, adjGet, nodeMapGet,
    stateExtensions, statePath, nodeTypeBlocked, sortPathsByAmount,
    List.mergeSort, List.find?]

/-- C4 counterexample: on a graph whose target id `X` appears on a link but
not in the node set, `findPaths` with target `X` returns a path whose node
sequence does not end at `X`. -/
theorem findPaths_target_dangling_not_end :
    ∃ p ∈ findPaths danglingNet "A" (some "X") { maxHops := 1 },
      (p.nodes.map NetworkNode.id).getLast? ≠ some "X" := by
  rw [danglingNet_findPaths_toX]
  refine ⟨_, List.mem_singleton.mpr rfl, ?_⟩
  simp [nodeA7]

/-- A graph whose only link starts at an id `X` that is not in the node
set. -/
def nodeB8 : NetworkNode := { id := "B", name := "Node B", type := "media" }

def linkXB : NetworkLink :=
  { source := "X", target := "B", relationship := "grant", amount := some 5 }

def unknownStartNet : DonorMediaNetwork := { nodes := [nodeB8], links := [linkXB] }

theorem unknownStartNet_findPaths :
    findPaths unknownStartNet "X" none { maxHops := 1 } =
      [{ nodes := [nodeB8], links := [linkXB], totalAmount := 5, hopCount := 1 }] := by
  simp [findPaths, findPathsGo, endIdTruthy, buildAdjacencyMap, buildNodeMap, nodeB8, linkXB,
    unknownStartNet, adjPush, nodeMapSet, relationshipExcluded, adjGet, nodeMapGet,
    stateExtensions, statePath, nodeTypeBlocked, sortPathsByAmount,
    List.mergeSort, List.find?]

/-- C8 counterexample: a `startId` that is absent from the node set but
referenced by a link does NOT yield an empty result — the BFS starts from it
through the adjacency map. -/
theorem findPaths_unknown_start_nonempty :
    ("X" ∉ unknownStartNet.nodes.map NetworkNode.id) ∧
    findPaths unknownStartNet "X" none { maxHops := 1 } ≠ [] := by
  constructor
  · decide
  · rw [unknownStartNet_findPaths]
    simp

/-- A graph whose only link starts at the empty-string id. -/
def emptyIdLink : NetworkLink :=
  { source := "", target := "B", relationship := "grant", amount := some 5 }

def emptyIdNet : DonorMediaNetwork := { nodes := [nodeB8], links := [emptyIdLink] }

/-- Concrete evaluation: with `startId = endId = ""`, the empty-string target
is falsy, so the call runs the null-target collection and returns one path. -/
theorem emptyIdNet_findPaths :
    findPaths emptyIdNet "" (some "") { maxHops := 1 } =
      [{ nodes := [nodeB8], links := [emptyIdLink], totalAmount := 5, hopCount := 1 }] := by
  simp [findPaths, findPathsGo, endIdTruthy, buildAdjacencyMap, buildNodeMap, nodeB8, emptyIdLink,
    emptyIdNet, adjPush, nodeMapSet, relationshipExcluded, adjGet, nodeMapGet,
    stateExtensions, statePath, nodeTypeBlocked, sortPathsByAmount,
    List.mergeSort, List.find?]

/-- C10 counterexample: with the empty string as both start and target id,
the target is falsy in JS, the search degrades to a null-target collection,
and the result is not the empty list. -/
theorem findPaths_empty_selfid_nonempty :
    findPaths emptyIdNet "" (some "") { maxHops := 1 } ≠ [] := by
  rw [emptyIdNet_findPaths]
  simp

/-- With a hop budget below one, nothing is ever emitted: the start state is
a one-node path, and every pushed extension exceeds the budget. -/
theorem not_emits_of_maxHops_lt_one {adj : AdjacencyMap} {nm : NodeMap}
    {endId : Option String} {maxHops : Int} {fbnt : Option (List String)}
    {startId : String} {p : MoneyPath} (hm : maxHops < 1) :
    ¬ Emits adj nm endId maxHops fbnt (bfsInit startId) p := by
  intro h
  cases h with
  | hereTarget h1 h2 h3 h4 => simp [bfsInit] at h4
  | hereNull h1 h2 h3 => simp [bfsInit] at h3
  | step h1 h2 h3 h4 =>
      have hlen := stateExtensions_nodePath_length h3
      refine not_emits_of_budget ?_ h4
      simp only [bfsInit, List.length_singleton] at hlen
      rw [hlen]
      push_cast
      omega

/-- A start id touched by no link has no adjacency entries. -/
theorem adjGet_buildAdjacencyMap_isolated (network : DonorMediaNetwork)
    (fbr : Option (List String)) (startId : String)
    (hiso : ∀ link ∈ network.links, link.source ≠ startId ∧ link.target ≠ startId) :
    adjGet (buildAdjacencyMap network fbr) startId = [] := by
  rw [buildAdjacencyMap]
  have key : ∀ (links : List NetworkLink) (m : AdjacencyMap),
      (∀ link ∈ links, link.source ≠ startId ∧ link.target ≠ startId) →
      adjGet m startId = [] →
      adjGet (links.foldl
        (fun m link =>
          if relationshipExcluded fbr link then m
          else adjPush (adjPush m link.source ⟨link.target, link⟩)
            link.target ⟨link.source, link⟩) m) startId = [] := by
    intro links
    induction links with
    | nil => intro m hl hm; exact hm
    | cons l ls ih =>
        intro m hl hm
        simp only [List.foldl_cons]
        refine ih _ (fun link hlink => hl link (List.mem_cons_of_mem _ hlink)) ?_
        obtain ⟨hs, ht⟩ := hl l (List.mem_cons_self _ _)
        split
        · exact hm
        · rw [adjGet_adjPush_ne _ _ _ _ (fun hc => ht hc.symm),
            adjGet_adjPush_ne _ _ _ _ (fun hc => hs hc.symm)]
          exact hm
  refine key network.links [] hiso ?_
  simp [adjGet]

theorem not_emits_of_isolated_start {nm : NodeMap} {endId : Option String}
    {maxHops : Int} {fbnt : Option (List String)} {startId : String}
    {p : MoneyPath} {network : DonorMediaNetwork} {fbr : Option (List String)}
    (hiso : ∀ link ∈ network.links, link.source ≠ startId ∧ link.target ≠ startId) :
    ¬ Emits (buildAdjacencyMap network fbr) nm endId maxHops fbnt
      (bfsInit startId) p := by
  intro h
  have hadj : adjGet (buildAdjacencyMap network fbr) startId = [] :=
    adjGet_buildAdjacencyMap_isolated network fbr startId hiso
  have hext : stateExtensions (buildAdjacencyMap network fbr) nm fbnt (bfsInit startId) = [] := by
    rw [stateExtensions]
    simp [bfsInit, hadj]
  cases h with
  | hereTarget h1 h2 h3 h4 => simp [bfsInit] at h4
  | hereNull h1 h2 h3 => simp [bfsInit] at h3
  | step h1 h2 h3 h4 =>
      rw [hext] at h3
      exact absurd h3 (List.not_mem_nil _)

/-- C8 (amended): `findPaths` with `maxHops < 1` returns the empty list, and
a `startId` touched by no link (in particular one neither in the node set
nor in any link) returns the empty list; neither case raises an error.  The
claim's bare "startId not in the node set" fails: an unknown start id that
does appear in a link is traversed (see the counterexample). -/
theorem findPaths_invalid_params_empty :
    (∀ (network : DonorMediaNetwork) (startId : String) (endId : Option String)
       (options : PathFinderOptions), options.maxHops < 1 →
       findPaths network startId endId options = []) ∧
    (∀ (network : DonorMediaNetwork) (startId : String) (endId : Option String)
       (options : PathFinderOptions),
       (∀ link ∈ network.links, link.source ≠ startId ∧ link.target ≠ startId) →
       findPaths network startId endId options = []) := by
  constructor
  · intro network startId endId options hm
    rw [List.eq_nil_iff_forall_not_mem]
    intro p hp
    rw [mem_findPaths_iff] at hp
    exact not_emits_of_maxHops_lt_one hm hp
  · intro network startId endId options hiso
    rw [List.eq_nil_iff_forall_not_mem]
    intro p hp
    rw [mem_findPaths_iff] at hp
    exact not_emits_of_isolated_start hiso hp

theorem findPaths_invalid_params_empty_witness :
    findPaths exampleNetwork "A" none { maxHops := 0 } = [] :=
  findPaths_invalid_params_empty.1 exampleNetwork "A" none { maxHops := 0 }
    (by norm_num)

/-- C9 counterexample: with an empty input node list the initialization
effect leaves `isSimulating` at its initial value `true` — the hook never
reports the simulation as settled (not simulating). -/
theorem useForceLayout_empty_not_settled :
    ¬ ((useForceLayoutInitEffect (fun _ => 0) 800 600 [] []
        forceLayoutInitialState).stateAfterBody.isSimulating = false) := by
  decide

/-- C9 (amended): an empty input node list resets the exposed node and link
lists to empty and creates no simulation — so no tick handler exists, no
position snapshot is ever emitted, no end event can fire, and no error is
raised; `isSimulating`, however, keeps its previous value, which from the
initial hook state is `true` (the hook is never reported settled). -/
theorem useForceLayout_empty_spec :
    (∀ (rand : Nat → ℚ) (width height : ℚ) (inputLinks : List NetworkLink)
       (st : ForceLayoutState),
       useForceLayoutInitEffect rand width height [] inputLinks st =
         { stateAfterBody :=
             { nodes := [], links := [], isSimulating := st.isSimulating }
           simulation := none }) ∧
    (∀ (rand : Nat → ℚ) (width height : ℚ) (inputLinks : List NetworkLink),
       (useForceLayoutInitEffect rand width height [] inputLinks
         forceLayoutInitialState).stateAfterBody.isSimulating = true) := by
  constructor
  · intro rand width height inputLinks st
    rfl
  · intro rand width height inputLinks
    rfl

/-- The grouping key of a path: the id of the last node of its resolved node
list. -/
def termId (p : MoneyPath) : Option String :=
  (p.nodes.getLast?).map NetworkNode.id

/-- The paths of a list whose terminal node id is `k`. -/
def pathsTo (paths : List MoneyPath) (k : String) : List MoneyPath :=
  paths.filter (fun p => termId p == some k)

/-- Lookup in the recipient map. -/
def recLookup (m : List (String × DownstreamRecipient)) (k : String) :
    Option DownstreamRecipient :=
  Option.map Prod.snd (m.find? (fun p => p.1 = k))

theorem recLookup_cons_self (k : String) (r : DownstreamRecipient)
    (rest : List (String × DownstreamRecipient)) :
    recLookup ((k, r) :: rest) k = some r := by
  rw [recLookup, List.find?_cons_of_pos _ (by simp)]
  rfl

theorem recLookup_cons_ne (k₀ : String) (r₀ : DownstreamRecipient)
    (rest : List (String × DownstreamRecipient)) (k : String) (h : k₀ ≠ k) :
    recLookup ((k₀, r₀) :: rest) k = recLookup rest k := by
  rw [recLookup, List.find?_cons_of_neg _ (by simpa using h)]
  rfl

theorem recLookup_recipientAdd_self (m : List (String × DownstreamRecipient))
    (endNode : NetworkNode) (amt : Int) :
    recLookup (recipientAdd m endNode amt) endNode.id =
      match recLookup m endNode.id with
      | some r => some ⟨r.node, r.totalAmount + amt, r.pathCount + 1⟩
      | none => some ⟨endNode, amt, 1⟩ := by
  induction m with
  | nil =>
      simp only [recipientAdd]
      rw [recLookup_cons_self]
      simp [recLookup]
  | cons p rest ih =>
      obtain ⟨k₀, r₀⟩ := p
      simp only [recipientAdd]
      by_cases h : k₀ = endNode.id
      · subst h
        rw [if_pos rfl, recLookup_cons_self, recLookup_cons_self]
      · rw [if_neg h, recLookup_cons_ne _ _ _ _ h, recLookup_cons_ne _ _ _ _ h, ih]

theorem recLookup_recipientAdd_ne (m : List (String × DownstreamRecipient))
    (endNode : NetworkNode) (amt : Int) (k : String) (h : k ≠ endNode.id) :
    recLookup (recipientAdd m endNode amt) k = recLookup m k := by
  induction m with
  | nil =>
      simp only [recipientAdd]
      rw [recLookup_cons_ne _ _ _ _ (fun hc => h hc.symm)]
  | cons p rest ih =>
      obtain ⟨k₀, r₀⟩ := p
      simp only [recipientAdd]
      by_cases h₀ : k₀ = endNode.id
      · rw [if_pos h₀]
        have hne : k₀ ≠ k := fun hc => h (hc ▸ h₀)
        rw [recLookup_cons_ne _ _ _ _ hne, recLookup_cons_ne _ _ _ _ hne]
      · rw [if_neg h₀]
        by_cases h₁ : k₀ = k
        · subst h₁
          rw [recLookup_cons_self, recLookup_cons_self]
        · rw [recLookup_cons_ne _ _ _ _ h₁, recLookup_cons_ne _ _ _ _ h₁, ih]

/-- The total-function version of the grouping step (the `none` branch of
`downstreamStep` never fires on a path with a nonempty node list). -/
def downstreamStepPure (sourceId : String)
    (m : List (String × DownstreamRecipient)) (path : MoneyPath) :
    List (String × DownstreamRecipient) :=
  match path.nodes.getLast? with
  | none => m
  | some endNode =>
      if endNode.id = sourceId then m
      else recipientAdd m endNode path.totalAmount

theorem downstreamFold_eq_pure (sourceId : String) (paths : List MoneyPath)
    (hne : ∀ p ∈ paths, p.nodes ≠ []) (m : List (String × DownstreamRecipient)) :
    paths.foldlM (downstreamStep sourceId) m =
      some (paths.foldl (downstreamStepPure sourceId) m) := by
  induction paths generalizing m with
  | nil => rfl
  | cons p ps ih =>
      have hp : p.nodes ≠ [] := hne p (List.mem_cons_self _ _)
      rcases hlast : p.nodes.getLast? with - | endNode
      · exact absurd (List.getLast?_eq_none_iff.mp hlast) hp
      · have hrec := ih (fun q hq => hne q (List.mem_cons_of_mem _ hq))
        simp only [List.foldlM_cons, List.foldl_cons, downstreamStep,
          downstreamStepPure, hlast]
        by_cases hsrc : endNode.id = sourceId
        · rw [if_pos hsrc, if_pos hsrc]
          simpa using hrec m
        · rw [if_neg hsrc, if_neg hsrc]
          simpa using hrec _

/-- Per-key accumulation over the paths reaching `k`. -/
def recAccum (acc : Option DownstreamRecipient) (p : MoneyPath) :
    Option DownstreamRecipient :=
  match p.nodes.getLast? with
  | none => acc
  | some endNode =>
      match acc with
      | some r => some ⟨r.node, r.totalAmount + p.totalAmount, r.pathCount + 1⟩
      | none => some ⟨endNode, p.totalAmount, 1⟩

/-- Lookup after the grouping fold: the entry of every non-source key is the
accumulation over exactly the paths whose terminal id is that key. -/
theorem recLookup_downstreamFold (sourceId : String) (paths : List MoneyPath)
    (k : String) (hk : k ≠ sourceId) :
    ∀ m : List (String × DownstreamRecipient),
    recLookup (paths.foldl (downstreamStepPure sourceId) m) k =
      (pathsTo paths k).foldl recAccum (recLookup m k) := by
  induction paths with
  | nil =>
      intro m
      simp [pathsTo]
  | cons p ps ih =>
      intro m
      simp only [List.foldl_cons]
      rcases hlast : p.nodes.getLast? with - | endNode
      · have hstep : downstreamStepPure sourceId m p = m := by
          simp [downstreamStepPure, hlast]
        have hfilter : pathsTo (p :: ps) k = pathsTo ps k := by
          simp [pathsTo, List.filter_cons, termId, hlast]
        rw [hstep, hfilter]
        exact ih m
      · by_cases hsrc : endNode.id = sourceId
        · have hstep : downstreamStepPure sourceId m p = m := by
            simp [downstreamStepPure, hlast, hsrc]
          have hks : ¬ sourceId = k := fun hc => hk hc.symm
          have hfilter : pathsTo (p :: ps) k = pathsTo ps k := by
            have ht : termId p = some sourceId := by simp [termId, hlast, hsrc]
            simp [pathsTo, List.filter_cons, ht, hks]
          rw [hstep, hfilter]
          exact ih m
        · have hstep : downstreamStepPure sourceId m p =
              recipientAdd m endNode p.totalAmount := by
            simp [downstreamStepPure, hlast, hsrc]
          rw [hstep]
          by_cases hkk : endNode.id = k
          · subst hkk
            have hfilter : pathsTo (p :: ps) endNode.id = p :: pathsTo ps endNode.id := by
              simp [pathsTo, List.filter_cons, termId, hlast]
            have hacc : recLookup (recipientAdd m endNode p.totalAmount) endNode.id =
                recAccum (recLookup m endNode.id) p := by
              rw [recLookup_recipientAdd_self]
              simp only [recAccum, hlast]
            rw [hfilter]
            simp only [List.foldl_cons]
            rw [ih (recipientAdd m endNode p.totalAmount), hacc]
          · have hfilter : pathsTo (p :: ps) k = pathsTo ps k := by
              have ht : termId p = some endNode.id := by simp [termId, hlast]
              simp [pathsTo, List.filter_cons, ht, hkk]
            rw [hfilter, ih (recipientAdd m endNode p.totalAmount),
              recLookup_recipientAdd_ne _ _ _ _ (fun hc => hkk hc.symm)]

theorem recAccum_foldl_some (ps : List MoneyPath)
    (hps : ∀ p ∈ ps, (p.nodes.getLast?).isSome) (r : DownstreamRecipient) :
    ps.foldl recAccum (some r) =
      some ⟨r.node, r.totalAmount + (ps.map MoneyPath.totalAmount).sum,
        r.pathCount + ps.length⟩ := by
  induction ps generalizing r with
  | nil => simp
  | cons p ps ih =>
      have hp := hps p (List.mem_cons_self _ _)
      rcases hlast : p.nodes.getLast? with - | endNode
      · rw [hlast] at hp
        cases hp
      · simp only [List.foldl_cons, recAccum, hlast]
        rw [ih (fun q hq => hps q (List.mem_cons_of_mem _ hq))]
        have h1 : r.totalAmount + p.totalAmount + (ps.map MoneyPath.totalAmount).sum =
            r.totalAmount + ((p :: ps).map MoneyPath.totalAmount).sum := by
          simp [add_assoc]
        have h2 : r.pathCount + 1 + ps.length = r.pathCount + (p :: ps).length := by
          simp only [List.length_cons]
          omega
        rw [h1, h2]

theorem recAccum_foldl_none (ps : List MoneyPath)
    (hps : ∀ p ∈ ps, (p.nodes.getLast?).isSome) (hne : ps ≠ []) :
    ∃ r : DownstreamRecipient, ps.foldl recAccum none = some r ∧
      r.totalAmount = (ps.map MoneyPath.totalAmount).sum ∧
      r.pathCount = ps.length := by
  cases ps with
  | nil => exact absurd rfl hne
  | cons p rest =>
      have hp := hps p (List.mem_cons_self _ _)
      rcases hlast : p.nodes.getLast? with - | endNode
      · rw [hlast] at hp
        cases hp
      · simp only [List.foldl_cons, recAccum, hlast]
        rw [recAccum_foldl_some rest (fun q hq => hps q (List.mem_cons_of_mem _ hq))]
        refine ⟨_, rfl, by simp, ?_⟩
        simp only [List.length_cons]
        omega

/-- Invariant of the recipient map: distinct keys, every entry stored under
its node's id, and no entry for the source. -/
def RecMapInv (sourceId : String) (m : List (String × DownstreamRecipient)) : Prop :=
  (m.map Prod.fst).Nodup ∧ ∀ q ∈ m, q.2.node.id = q.1 ∧ q.1 ≠ sourceId

theorem recipientAdd_fst (m : List (String × DownstreamRecipient))
    (endNode : NetworkNode) (amt : Int) :
    (recipientAdd m endNode amt).map Prod.fst =
      if endNode.id ∈ m.map Prod.fst then m.map Prod.fst
      else m.map Prod.fst ++ [endNode.id] := by
  induction m with
  | nil => simp [recipientAdd]
  | cons p rest ih =>
      obtain ⟨k, r⟩ := p
      simp only [recipientAdd]
      by_cases h : k = endNode.id
      · subst h
        simp
      · rw [if_neg h]
        simp only [List.map_cons, ih, List.mem_cons]
        by_cases hmem : endNode.id ∈ rest.map Prod.fst
        · rw [if_pos hmem, if_pos (Or.inr hmem)]
        · rw [if_neg hmem, if_neg ?_]
          · simp
          · rintro (hc | hc)
            · exact h hc.symm
            · exact hmem hc

theorem recipientAdd_entries (m : List (String × DownstreamRecipient))
    (endNode : NetworkNode) (amt : Int) (q : String × DownstreamRecipient)
    (hq : q ∈ recipientAdd m endNode amt) :
    (∃ q₀ ∈ m, q.1 = q₀.1 ∧ q.2.node = q₀.2.node) ∨
    (q.1 = endNode.id ∧ q.2.node = endNode) := by
  induction m with
  | nil =>
      simp only [recipientAdd, List.mem_singleton] at hq
      subst hq
      exact Or.inr ⟨rfl, rfl⟩
  | cons p rest ih =>
      obtain ⟨k, r⟩ := p
      simp only [recipientAdd] at hq
      split at hq
      · rcases List.mem_cons.mp hq with rfl | hmem
        · exact Or.inl ⟨(k, r), List.mem_cons_self _ _, rfl, rfl⟩
        · exact Or.inl ⟨q, List.mem_cons_of_mem _ hmem, rfl, rfl⟩
      · rcases List.mem_cons.mp hq with rfl | hmem
        · exact Or.inl ⟨(k, r), List.mem_cons_self _ _, rfl, rfl⟩
        · rcases ih hmem with ⟨q₀, hq₀, hfst, hnode⟩ | hnew
          · exact Or.inl ⟨q₀, List.mem_cons_of_mem _ hq₀, hfst, hnode⟩
          · exact Or.inr hnew

theorem recipientAdd_inv {sourceId : String}
    {m : List (String × DownstreamRecipient)} (h : RecMapInv sourceId m)
    {endNode : NetworkNode} (amt : Int) (hid : endNode.id ≠ sourceId) :
    RecMapInv sourceId (recipientAdd m endNode amt) := by
  obtain ⟨hkeys, hvals⟩ := h
  constructor
  · rw [recipientAdd_fst]
    split
    · exact hkeys
    · rw [List.nodup_append]
      refine ⟨hkeys, List.nodup_singleton _, ?_⟩
      intro a ha hb
      rw [List.mem_singleton] at hb
      subst hb
      exact (by assumption : endNode.id ∉ m.map Prod.fst) ha
  · intro q hq
    rcases recipientAdd_entries m endNode amt q hq with ⟨q₀, hq₀, hfst, hnode⟩ | ⟨hfst, hnode⟩
    · obtain ⟨hidq, hsrcq⟩ := hvals q₀ hq₀
      rw [hnode, hfst]
      exact ⟨hidq, hfst ▸ hsrcq⟩
    · rw [hnode, hfst]
      exact ⟨rfl, hid⟩

theorem downstreamFold_inv (sourceId : String) (paths : List MoneyPath) :
    ∀ m, RecMapInv sourceId m →
      RecMapInv sourceId (paths.foldl (downstreamStepPure sourceId) m) := by
  induction paths with
  | nil => intro m hm; exact hm
  | cons p ps ih =>
      intro m hm
      simp only [List.foldl_cons]
      refine ih _ ?_
      rcases hlast : p.nodes.getLast? with - | endNode
      · simp only [downstreamStepPure, hlast]
        exact hm
      · simp only [downstreamStepPure, hlast]
        by_cases hsrc : endNode.id = sourceId
        · rw [if_pos hsrc]
          exact hm
        · rw [if_neg hsrc]
          exact recipientAdd_inv hm _ hsrc

theorem recLookup_of_mem {m : List (String × DownstreamRecipient)}
    (hkeys : (m.map Prod.fst).Nodup) {q : String × DownstreamRecipient}
    (hq : q ∈ m) : recLookup m q.1 = some q.2 := by
  induction m with
  | nil => exact absurd hq (List.not_mem_nil q)
  | cons p rest ih =>
      rcases List.mem_cons.mp hq with rfl | hmem
      · obtain ⟨k, r⟩ := q
        exact recLookup_cons_self k r rest
      · obtain ⟨k₀, r₀⟩ := p
        simp only [List.map_cons, List.nodup_cons] at hkeys
        have hne : k₀ ≠ q.1 := by
          intro hc
          exact hkeys.1 (hc ▸ List.mem_map_of_mem Prod.fst hmem)
        rw [recLookup_cons_ne _ _ _ _ hne]
        exact ih hkeys.2 hmem

theorem mem_of_recLookup {m : List (String × DownstreamRecipient)} {k : String}
    {r : DownstreamRecipient} (h : recLookup m k = some r) : (k, r) ∈ m := by
  induction m with
  | nil => simp [recLookup] at h
  | cons p rest ih =>
      obtain ⟨k₀, r₀⟩ := p
      by_cases hk : k₀ = k
      · subst hk
        rw [recLookup_cons_self] at h
        rw [Option.some_inj] at h
        subst h
        exact List.mem_cons_self _ _
      · rw [recLookup_cons_ne _ _ _ _ hk] at h
        exact List.mem_cons_of_mem _ (ih h)

/-- On a well-formed graph every returned path has a nonempty node list. -/
theorem findPaths_nodes_nonempty (network : DonorMediaNetwork) (startId : String)
    (endId : Option String) (options : PathFinderOptions)
    (hstart : startId ∈ network.nodes.map NetworkNode.id)
    (hlinks : ∀ link ∈ network.links,
      link.source ∈ network.nodes.map NetworkNode.id ∧
      link.target ∈ network.nodes.map NetworkNode.id) :
    ∀ p ∈ findPaths network startId endId options, p.nodes ≠ [] := by
  intro p hp
  rw [mem_findPaths_iff] at hp
  obtain ⟨t, hinv, hids, -, -, -, rfl⟩ :=
    emits_sound_resolved hp (stateInv_init startId)
      (stateIdsOk_init (buildAdjacencyMap network options.filterByRelationship) startId)
  have hres : ∀ k ∈ t.nodePath, k ∈ network.nodes.map NetworkNode.id := by
    intro k hk
    rcases hids k hk with rfl | ⟨e, hmem, rfl⟩
    · exact hstart
    · obtain ⟨link, hlink, hor⟩ := adjMem_buildAdjacencyMap hmem
      rcases hor with rfl | rfl
      · exact (hlinks link hlink).2
      · exact (hlinks link hlink).1
  have hmap := filterMap_nodeMapGet_all network.nodes t.nodePath hres
  intro hnil
  have hnil₂ : t.nodePath.filterMap (nodeMapGet (buildNodeMap network.nodes)) = [] := by
    simpa [statePath] using hnil
  rw [hnil₂, List.map_nil] at hmap
  exact hinv.1 hmap.symm

/-- Every path grouped under key `k` has a terminal node. -/
theorem pathsTo_getLast_isSome (paths : List MoneyPath) (k : String) :
    ∀ q ∈ pathsTo paths k, (q.nodes.getLast?).isSome := by
  intro q hq
  rw [pathsTo, List.mem_filter] at hq
  have h2 := hq.2
  rw [beq_iff_eq, termId] at h2
  rcases hlast : q.nodes.getLast? with - | n
  · rw [hlast] at h2
    cases h2
  · rfl

/-- A graph with no nodes whose single link starts at `X`: the BFS from `X`
reaches `Y`, but neither id resolves, so the emitted path has an empty node
list and the grouping loop dereferences an undefined terminal. -/
def crashLink : NetworkLink :=
  { source := "X", target := "Y", relationship := "grant", amount := some 5 }

def crashNet : DonorMediaNetwork := { nodes := [], links := [crashLink] }

/-- C5 counterexample: on a graph where the path search returns a path whose
node list is empty (no link endpoint resolves in the node set), the grouping
loop reads `.id` of `path.nodes[path.nodes.length - 1]`, which is
`undefined` — a `TypeError`, modelled as `none`; the claimed grouped sorted
list is never produced. -/
theorem getDownstreamRecipients_crash :
    getDownstreamRecipients crashNet "X" 1 = none := by
  simp [getDownstreamRecipients, downstreamStep, recipientAdd,
    findPaths, findPathsGo, endIdTruthy, buildAdjacencyMap, buildNodeMap, crashLink,
    crashNet, adjPush, nodeMapSet, relationshipExcluded, adjGet, nodeMapGet,
    stateExtensions, statePath, nodeTypeBlocked, sortPathsByAmount,
    List.mergeSort, List.find?, List.foldlM]

/-- C5: on a well-formed graph, `getDownstreamRecipients` succeeds and
returns the paths of `findPaths(G, s, null, {maxHops})` grouped by terminal
node id: the source is excluded, each entry accumulates the total amount and
the count of the paths reaching its node, every reached non-source terminal
has an entry, and the list is sorted by accumulated amount descending; in
particular a terminal reached by exactly one path of amount `A` is reported
with `(A, pathCount = 1)`. -/
theorem getDownstreamRecipients_spec (network : DonorMediaNetwork)
    (sourceId : String) (maxHops : Int)
    (hstart : sourceId ∈ network.nodes.map NetworkNode.id)
    (hlinks : ∀ link ∈ network.links,
      link.source ∈ network.nodes.map NetworkNode.id ∧
      link.target ∈ network.nodes.map NetworkNode.id) :
    ∃ l, getDownstreamRecipients network sourceId maxHops = some l ∧
      l.Pairwise (fun a b => b.totalAmount ≤ a.totalAmount) ∧
      (∀ r ∈ l,
        r.node.id ≠ sourceId ∧
        r.totalAmount = ((pathsTo (findPaths network sourceId none
            { maxHops := maxHops, includeIntermediaries := true }) r.node.id).map
            MoneyPath.totalAmount).sum ∧
        r.pathCount = (pathsTo (findPaths network sourceId none
            { maxHops := maxHops, includeIntermediaries := true }) r.node.id).length ∧
        pathsTo (findPaths network sourceId none
            { maxHops := maxHops, includeIntermediaries := true }) r.node.id ≠ []) ∧
      (∀ k, k ≠ sourceId →
        pathsTo (findPaths network sourceId none
          { maxHops := maxHops, includeIntermediaries := true }) k ≠ [] →
        ∃ r ∈ l, r.node.id = k) ∧
      (∀ (k : String) (p : MoneyPath), k ≠ sourceId →
        pathsTo (findPaths network sourceId none
          { maxHops := maxHops, includeIntermediaries := true }) k = [p] →
        ∃ r ∈ l, r.node.id = k ∧ r.totalAmount = p.totalAmount ∧
          r.pathCount = 1) := by
  have hne := findPaths_nodes_nonempty network sourceId none
    { maxHops := maxHops, includeIntermediaries := true } hstart hlinks
  have hfold := downstreamFold_eq_pure sourceId
    (findPaths network sourceId none
      { maxHops := maxHops, includeIntermediaries := true }) hne []
  have hinv : RecMapInv sourceId
      ((findPaths network sourceId none
        { maxHops := maxHops, includeIntermediaries := true }).foldl
          (downstreamStepPure sourceId) []) :=
    downstreamFold_inv sourceId _ [] ⟨by simp, by simp⟩
  have hlook : ∀ k, k ≠ sourceId →
      recLookup ((findPaths network sourceId none
        { maxHops := maxHops, includeIntermediaries := true }).foldl
          (downstreamStepPure sourceId) []) k =
      (pathsTo (findPaths network sourceId none
        { maxHops := maxHops, includeIntermediaries := true }) k).foldl recAccum none := by
    intro k hk
    have h := recLookup_downstreamFold sourceId
      (findPaths network sourceId none
        { maxHops := maxHops, includeIntermediaries := true }) k hk []
    simpa [recLookup] using h
  refine ⟨(((findPaths network sourceId none
      { maxHops := maxHops, includeIntermediaries := true }).foldl
        (downstreamStepPure sourceId) []).map Prod.snd).mergeSort
      (fun a b => b.totalAmount ≤ a.totalAmount), ?_, ?_, ?_, ?_, ?_⟩
  · conv_lhs => rw [getDownstreamRecipients]
    rw [hfold]
    rfl
  · refine List.Pairwise.imp (fun hab => ?_) (List.sorted_mergeSort ?_ ?_ _)
    · exact of_decide_eq_true hab
    · intro a b c hab hbc
      simp only [decide_eq_true_eq] at *
      exact le_trans hbc hab
    · intro a b
      simp only [Bool.or_eq_true, decide_eq_true_eq]
      exact le_total b.totalAmount a.totalAmount
  · intro r hr
    rw [List.mem_mergeSort] at hr
    obtain ⟨q, hqmem, rfl⟩ := List.mem_map.mp hr
    obtain ⟨hid, hsrc⟩ := hinv.2 q hqmem
    have hlookq := recLookup_of_mem hinv.1 hqmem
    rw [hlook q.1 hsrc] at hlookq
    by_cases hnil : pathsTo (findPaths network sourceId none
        { maxHops := maxHops, includeIntermediaries := true }) q.1 = []
    · rw [hnil] at hlookq
      simp at hlookq
    · obtain ⟨r₀, hr₀, hamt, hcnt⟩ := recAccum_foldl_none _
        (pathsTo_getLast_isSome _ q.1) hnil
      rw [hr₀, Option.some_inj] at hlookq
      rw [hid]
      rw [hlookq] at hamt hcnt
      exact ⟨hsrc, hamt, hcnt, hnil⟩
  · intro k hk hne₀
    obtain ⟨r₀, hr₀, -, -⟩ := recAccum_foldl_none _ (pathsTo_getLast_isSome _ k) hne₀
    have hlk : recLookup ((findPaths network sourceId none
        { maxHops := maxHops, includeIntermediaries := true }).foldl
          (downstreamStepPure sourceId) []) k = some r₀ := by
      rw [hlook k hk, hr₀]
    have hmem := mem_of_recLookup hlk
    refine ⟨r₀, ?_, (hinv.2 _ hmem).1⟩
    rw [List.mem_mergeSort]
    exact List.mem_map_of_mem Prod.snd hmem
  · intro k p hk hone
    have hne₀ : pathsTo (findPaths network sourceId none
        { maxHops := maxHops, includeIntermediaries := true }) k ≠ [] := by
      rw [hone]
      simp
    obtain ⟨r₀, hr₀, hamt, hcnt⟩ := recAccum_foldl_none _
      (pathsTo_getLast_isSome _ k) hne₀
    have hlk : recLookup ((findPaths network sourceId none
        { maxHops := maxHops, includeIntermediaries := true }).foldl
          (downstreamStepPure sourceId) []) k = some r₀ := by
      rw [hlook k hk, hr₀]
    have hmem := mem_of_recLookup hlk
    refine ⟨r₀, ?_, (hinv.2 _ hmem).1, ?_, ?_⟩
    · rw [List.mem_mergeSort]
      exact List.mem_map_of_mem Prod.snd hmem
    · rw [hamt, hone]
      simp
    · rw [hcnt, hone]
      rfl

theorem getDownstreamRecipients_spec_witness :
    ∃ l, getDownstreamRecipients exampleNetwork "A" 2 = some l ∧
      l.Pairwise (fun a b => b.totalAmount ≤ a.totalAmount) ∧
      (∀ r ∈ l,
        r.node.id ≠ "A" ∧
        r.totalAmount = ((pathsTo (findPaths exampleNetwork "A" none
            { maxHops := 2, includeIntermediaries := true }) r.node.id).map
            MoneyPath.totalAmount).sum ∧
        r.pathCount = (pathsTo (findPaths exampleNetwork "A" none
            { maxHops := 2, includeIntermediaries := true }) r.node.id).length ∧
        pathsTo (findPaths exampleNetwork "A" none
            { maxHops := 2, includeIntermediaries := true }) r.node.id ≠ []) ∧
      (∀ k, k ≠ "A" →
        pathsTo (findPaths exampleNetwork "A" none
          { maxHops := 2, includeIntermediaries := true }) k ≠ [] →
        ∃ r ∈ l, r.node.id = k) ∧
      (∀ (k : String) (p : MoneyPath), k ≠ "A" →
        pathsTo (findPaths exampleNetwork "A" none
          { maxHops := 2, includeIntermediaries := true }) k = [p] →
        ∃ r ∈ l, r.node.id = k ∧ r.totalAmount = p.totalAmount ∧
          r.pathCount = 1) :=
  getDownstreamRecipients_spec exampleNetwork "A" 2
    (by simp [exampleNetwork, nodeA, nodeB, nodeC])
    (by
      intro link hlink
      simp only [exampleNetwork, List.mem_cons, List.not_mem_nil, or_false] at hlink
      rcases hlink with rfl | rfl
      · simp [linkAB, exampleNetwork, nodeA, nodeB, nodeC]
      · simp [linkBC, exampleNetwork, nodeA, nodeB, nodeC])
